import Mathlib

/-!
Shallow embedding of the DAM repository's indexing and retrieval engine
(crates/index: text_search.rs, vector.rs, document.rs, lib.rs) together
with proofs of the specified properties.

Modelling conventions:
* Rust `HashMap<K, V>` is modelled as an association list `List (K × V)`
  with unique keys; `insert` replaces in place, `entry(..).or_insert_with`
  is `modifyA`, `remove` is `eraseA`.
* Rust `Uuid` document ids are modelled as `Nat`.
* `f32` scores and boosts are modelled as `ℚ`; `f32::ln` is passed as an
  explicit function parameter `ln : ℚ → ℚ` (the claims about scoring are
  structural and hold for every choice of `ln`).
* Embedding vectors are modelled as `List ℝ` so that the normalization and
  cosine-similarity properties are exact statements about real arithmetic.
* Rust `String` text is modelled as `List Char`; `str::len` is the
  character count in this model (the source counts UTF-8 bytes; the two
  coincide on ASCII text).
* A Rust function that can panic (`assert_eq!`) is modelled with an
  `Option` result, `none` standing for the panic.
-/

namespace DAM

/-! ### Association lists modelling `HashMap` -/

variable {α β : Type} [DecidableEq α]

/-- First value stored under key `k`, as `HashMap::get`. -/
def lookupA : List (α × β) → α → Option β
  | [], _ => none
  | p :: r, k => if p.1 = k then some p.2 else lookupA r k

/-- Remove every entry with key `k`, as `HashMap::remove`. -/
def eraseA : List (α × β) → α → List (α × β)
  | [], _ => []
  | p :: r, k => if p.1 = k then eraseA r k else p :: eraseA r k

/-- Replace the value under `k` in place, or append a fresh entry,
as `HashMap::insert`. -/
def insertA : List (α × β) → α → β → List (α × β)
  | [], k, v => [(k, v)]
  | p :: r, k, v => if p.1 = k then (k, v) :: r else p :: insertA r k v

/-- Apply `f` to the value under `k`, inserting `f d` when the key is
absent; this is `map.entry(k).or_insert_with(|| d)` followed by a
mutation `f` of the entry. -/
def modifyA : List (α × β) → α → β → (β → β) → List (α × β)
  | [], k, d, f => [(k, f d)]
  | p :: r, k, d, f => if p.1 = k then (k, f p.2) :: r else p :: modifyA r k d f

/-- Keys of an association list. -/
def keysA (m : List (α × β)) : List α := m.map Prod.fst

/-- An association list with pairwise distinct keys, the invariant every
`HashMap` guarantees. -/
def NodupKeys (m : List (α × β)) : Prop := (m.map Prod.fst).Nodup

theorem lookupA_eraseA (m : List (α × β)) (k k' : α) :
    lookupA (eraseA m k) k' = if k' = k then none else lookupA m k' := by
  induction m with
  | nil => simp [eraseA, lookupA]
  | cons p r ih =>
    by_cases h1 : p.1 = k <;> by_cases h2 : k' = k <;>
      simp_all [eraseA, lookupA] <;> simp_all [eq_comm]

theorem lookupA_insertA (m : List (α × β)) (k k' : α) (v : β) :
    lookupA (insertA m k v) k' = if k' = k then some v else lookupA m k' := by
  induction m with
  | nil => by_cases h : k' = k <;> simp_all [insertA, lookupA, eq_comm]
  | cons p r ih =>
    by_cases h1 : p.1 = k <;> by_cases h2 : k' = k <;>
      simp_all [insertA, lookupA] <;> simp_all [eq_comm]

theorem lookupA_modifyA (m : List (α × β)) (k k' : α) (d : β) (f : β → β) :
    lookupA (modifyA m k d f) k' =
      if k' = k then some (f ((lookupA m k).getD d)) else lookupA m k' := by
  induction m with
  | nil => by_cases h : k' = k <;> simp_all [modifyA, lookupA, eq_comm]
  | cons p r ih =>
    by_cases h1 : p.1 = k <;> by_cases h2 : k' = k <;>
      simp_all [modifyA, lookupA] <;> simp_all [eq_comm]

theorem lookupA_eq_none_iff (m : List (α × β)) (k : α) :
    lookupA m k = none ↔ k ∉ keysA m := by
  induction m with
  | nil => simp [lookupA, keysA]
  | cons p r ih =>
    by_cases h : p.1 = k <;> simp_all [lookupA, keysA, eq_comm]

theorem lookupA_mem (m : List (α × β)) (k : α) (v : β)
    (h : lookupA m k = some v) : (k, v) ∈ m := by
  induction m with
  | nil => simp [lookupA] at h
  | cons p r ih =>
    by_cases h1 : p.1 = k
    · simp only [lookupA, if_pos h1, Option.some.injEq] at h
      exact List.mem_cons.mpr (Or.inl (by rw [← h1, ← h]))
    · simp only [lookupA, if_neg h1] at h
      exact List.mem_cons.mpr (Or.inr (ih h))

theorem mem_lookupA (m : List (α × β)) (k : α) (v : β)
    (hn : NodupKeys m) (h : (k, v) ∈ m) : lookupA m k = some v := by
  induction m with
  | nil => simp at h
  | cons p r ih =>
    rw [NodupKeys, List.map_cons, List.nodup_cons] at hn
    rcases List.mem_cons.mp h with h | h
    · simp [lookupA, ← h]
    · have hk : p.1 ≠ k := by
        intro he
        exact hn.1 (by rw [he]; exact List.mem_map_of_mem Prod.fst h)
      simp [lookupA, hk, ih hn.2 h]

theorem mem_eraseA (m : List (α × β)) (k : α) (q : α × β)
    (h : q ∈ eraseA m k) : q ∈ m := by
  induction m with
  | nil => simp [eraseA] at h
  | cons p r ih =>
    by_cases h1 : p.1 = k
    · simp only [eraseA, if_pos h1] at h
      exact List.mem_cons.mpr (Or.inr (ih h))
    · simp only [eraseA, if_neg h1] at h
      rcases List.mem_cons.mp h with h | h
      · exact List.mem_cons.mpr (Or.inl h)
      · exact List.mem_cons.mpr (Or.inr (ih h))

theorem mem_insertA (m : List (α × β)) (k : α) (v : β) (q : α × β)
    (h : q ∈ insertA m k v) : q ∈ m ∨ q = (k, v) := by
  induction m with
  | nil => simp [insertA] at h; exact Or.inr h
  | cons p r ih =>
    by_cases h1 : p.1 = k
    · simp only [insertA, if_pos h1] at h
      rcases List.mem_cons.mp h with h | h
      · exact Or.inr h
      · exact Or.inl (List.mem_cons.mpr (Or.inr h))
    · simp only [insertA, if_neg h1] at h
      rcases List.mem_cons.mp h with h | h
      · exact Or.inl (List.mem_cons.mpr (Or.inl h))
      · rcases ih h with h | h
        · exact Or.inl (List.mem_cons.mpr (Or.inr h))
        · exact Or.inr h

theorem mem_modifyA (m : List (α × β)) (k : α) (d : β) (f : β → β) (q : α × β)
    (h : q ∈ modifyA m k d f) : q ∈ m ∨ (q.1 = k ∧ ∃ b, q.2 = f b) := by
  induction m with
  | nil =>
    simp [modifyA] at h
    exact Or.inr (by rw [h]; exact ⟨rfl, d, rfl⟩)
  | cons p r ih =>
    by_cases h1 : p.1 = k
    · simp only [modifyA, if_pos h1] at h
      rcases List.mem_cons.mp h with h | h
      · exact Or.inr (by rw [h]; exact ⟨rfl, p.2, rfl⟩)
      · exact Or.inl (List.mem_cons.mpr (Or.inr h))
    · simp only [modifyA, if_neg h1] at h
      rcases List.mem_cons.mp h with h | h
      · exact Or.inl (List.mem_cons.mpr (Or.inl h))
      · rcases ih h with h | h
        · exact Or.inl (List.mem_cons.mpr (Or.inr h))
        · exact Or.inr h

theorem modifyA_ne_nil (m : List (α × β)) (k : α) (d : β) (f : β → β) :
    modifyA m k d f ≠ [] := by
  cases m with
  | nil => simp [modifyA]
  | cons p r =>
    by_cases h1 : p.1 = k <;> simp [modifyA, h1]

theorem nodupKeys_eraseA (m : List (α × β)) (k : α) (hn : NodupKeys m) :
    NodupKeys (eraseA m k) := by
  induction m with
  | nil => simpa [eraseA] using hn
  | cons p r ih =>
    rw [NodupKeys, List.map_cons, List.nodup_cons] at hn
    by_cases h1 : p.1 = k
    · simpa only [eraseA, if_pos h1] using ih hn.2
    · rw [eraseA, if_neg h1, NodupKeys, List.map_cons, List.nodup_cons]
      refine ⟨fun hm => ?_, ih hn.2⟩
      rcases List.mem_map.mp hm with ⟨q, hq, hqe⟩
      exact hn.1 (List.mem_map.mpr ⟨q, mem_eraseA r k q hq, hqe⟩)

theorem nodupKeys_insertA (m : List (α × β)) (k : α) (v : β) (hn : NodupKeys m) :
    NodupKeys (insertA m k v) := by
  induction m with
  | nil => simp [insertA, NodupKeys]
  | cons p r ih =>
    rw [NodupKeys, List.map_cons, List.nodup_cons] at hn
    by_cases h1 : p.1 = k
    · rw [insertA, if_pos h1, NodupKeys, List.map_cons, List.nodup_cons]
      exact ⟨by rw [← h1]; exact hn.1, hn.2⟩
    · rw [insertA, if_neg h1, NodupKeys, List.map_cons, List.nodup_cons]
      refine ⟨fun hm => ?_, ih hn.2⟩
      rcases List.mem_map.mp hm with ⟨q, hq, hqe⟩
      rcases mem_insertA r k v q hq with h | h
      · exact hn.1 (List.mem_map.mpr ⟨q, h, hqe⟩)
      · exact h1 (by rw [h] at hqe; exact hqe.symm ▸ rfl)

theorem nodupKeys_modifyA (m : List (α × β)) (k : α) (d : β) (f : β → β)
    (hn : NodupKeys m) : NodupKeys (modifyA m k d f) := by
  induction m with
  | nil => simp [modifyA, NodupKeys]
  | cons p r ih =>
    rw [NodupKeys, List.map_cons, List.nodup_cons] at hn
    by_cases h1 : p.1 = k
    · rw [modifyA, if_pos h1, NodupKeys, List.map_cons, List.nodup_cons]
      exact ⟨by rw [← h1]; exact hn.1, hn.2⟩
    · rw [modifyA, if_neg h1, NodupKeys, List.map_cons, List.nodup_cons]
      refine ⟨fun hm => ?_, ih hn.2⟩
      rcases List.mem_map.mp hm with ⟨q, hq, hqe⟩
      rcases mem_modifyA r k d f q hq with h | h
      · exact hn.1 (List.mem_map.mpr ⟨q, h, hqe⟩)
      · exact h1 (by rw [← hqe, h.1])


/-! ### Tokenizer (text_search.rs, `TextIndex::tokenize`) -/

/-- A character survives the stripping step when it is alphanumeric,
a hyphen, or an underscore. -/
def keepChar (c : Char) : Bool := c.isAlphanum || c = '-' || c = '_'

/-- Split a character list into maximal whitespace-free words, dropping
all whitespace, as `str::split_whitespace`: split at every whitespace
character and keep the nonempty chunks. -/
def splitWhitespace (l : List Char) : List (List Char) :=
  (l.splitOnP (fun c => c.isWhitespace)).filter (fun w => !w.isEmpty)

/-- `TextIndex::tokenize`: lower-case the text, split it on whitespace,
strip every character that is not alphanumeric, `-` or `_`, and discard
tokens shorter than 2 characters. -/
def tokenize (text : List Char) : List (List Char) :=
  (((text.map Char.toLower) |> splitWhitespace).map
      (fun word => word.filter keepChar)).filter
    (fun term => 2 ≤ term.length)

/-! ### Data model (document.rs, schema) -/

/-- `schema::AssetType`. -/
inductive AssetType
  | image | threeD | audio | video | document | archive | unknown
  deriving DecidableEq, Repr

/-- `format!("{:?}", asset_type).to_lowercase()` as used by
`TextIndex::add_document` for the `asset_type` pseudo-field. -/
def assetTypeLabel : AssetType → List Char
  | .image => "image".toList
  | .threeD => "threed".toList
  | .audio => "audio".toList
  | .video => "video".toList
  | .document => "document".toList
  | .archive => "archive".toList
  | .unknown => "unknown".toList

/-- `AssetDocument`, restricted to the fields the indexing and retrieval
engine reads (identifier, the searchable text fields, and the derived
quality score used by `SearchResult::calculate_weighted_score`). -/
structure AssetDocument where
  id : Nat
  filename : List Char
  title : List Char
  tags : List (List Char)
  ai_tags : List (List Char)
  description : Option (List Char)
  transcription : Option (List Char)
  ai_caption : Option (List Char)
  extracted_text : Option (List Char)
  asset_type : AssetType
  quality_score : ℚ
  deriving DecidableEq, Repr

/-- `IndexConfig` (document.rs). -/
structure IndexConfig where
  max_results : Nat
  min_similarity : ℚ
  text_weight : ℚ
  tag_weight : ℚ
  vector_weight : ℚ
  fuzzy_matching : Bool
  min_query_length : Nat
  deriving DecidableEq, Repr

/-- `IndexConfig::default`. -/
def IndexConfig.default : IndexConfig :=
  { max_results := 100
    min_similarity := 7/10
    text_weight := 1
    tag_weight := 3/2
    vector_weight := 4/5
    fuzzy_matching := true
    min_query_length := 2 }

/-- `IndexError` (error.rs). -/
inductive IndexError
  | DatabaseError (msg : String)
  | IndexNotFound (msg : String)
  | DocumentNotFound (msg : String)
  | SearchFailed (msg : String)
  | VectorError (msg : String)
  | SerializationError (msg : String)
  | CorruptedIndex (msg : String)
  deriving DecidableEq, Repr

/-! ### Text index (text_search.rs) -/

/-- `TermOccurrence`: one occurrence of a term in one field of one
document. -/
structure TermOccurrence where
  field : String
  position : Nat
  score_boost : ℚ
  deriving DecidableEq, Repr

/-- The term → (document → occurrences) posting structure. -/
abbrev TermIndexMap := List (List Char × List (Nat × List TermOccurrence))

/-- `FieldMatch` (text_search.rs). -/
structure FieldMatch where
  field_name : String
  match_text : List Char
  position : Nat
  score : ℚ
  deriving DecidableEq, Repr

/-- `TextMatch` (text_search.rs). -/
structure TextMatch where
  document_id : Nat
  score : ℚ
  «matches» : List FieldMatch
  deriving DecidableEq, Repr

/-- `TextIndex`: inverted index, reverse document → term-set map, and
the configuration. -/
structure TextIndex where
  term_index : TermIndexMap
  document_terms : List (Nat × List (List Char))
  config : IndexConfig
  deriving DecidableEq, Repr

/-- `TextIndex::new`. -/
def TextIndex.new (config : IndexConfig) : TextIndex :=
  { term_index := [], document_terms := [], config := config }

/-- `HashSet::insert` on the per-document term set (`doc_terms`). -/
def insertTermSet (s : List (List Char)) (t : List Char) : List (List Char) :=
  if t ∈ s then s else s ++ [t]

/-- The loop body of `TextIndex::index_field`: record one term occurrence
at `pos`, then continue with the remaining tokens. -/
def indexTokens (did : Nat) (field : String) (boost : ℚ) :
    Nat → List (List Char) → TermIndexMap × List (List Char) →
      TermIndexMap × List (List Char)
  | _, [], st => st
  | pos, t :: ts, (ti, dt) =>
    indexTokens did field boost (pos + 1) ts
      (modifyA ti t []
        (fun m => modifyA m did []
          (fun occs => occs ++ [⟨field, pos, boost⟩])),
        insertTermSet dt t)

/-- `TextIndex::index_field`: tokenize the field text and record every
occurrence with its position and boost, collecting the terms seen. -/
def index_field (did : Nat) (field : String) (text : List Char) (boost : ℚ)
    (st : TermIndexMap × List (List Char)) : TermIndexMap × List (List Char) :=
  indexTokens did field boost 0 (tokenize text) st

/-- The inner loop of `TextIndex::remove_document`: delete `did` from one
term's posting map and prune the term when its posting map becomes
empty. -/
def removeTermDoc (ti : TermIndexMap) (did : Nat) (t : List Char) :
    TermIndexMap :=
  match lookupA ti t with
  | none => ti
  | some m =>
    let m' := eraseA m did
    if m' = [] then eraseA ti t else insertA ti t m'

/-- `TextIndex::remove_document`: look up the reverse map; when present,
delete the document from every recorded term's posting map (pruning
emptied terms) and drop the reverse-map entry; otherwise do nothing. -/
def remove_document (idx : TextIndex) (did : Nat) : TextIndex :=
  match lookupA idx.document_terms did with
  | none => idx
  | some ts =>
    { idx with
      term_index := ts.foldl (fun ti t => removeTermDoc ti did t) idx.term_index
      document_terms := eraseA idx.document_terms did }

/-- `" "`-joining of a list of strings, as `Vec::join(" ")`. -/
def joinSpace (parts : List (List Char)) : List Char :=
  List.intercalate [' '] parts

/-- `TextIndex::add_document`: first remove any existing entry for the
document id, then index every boosted field, and finally record the full
term set in the reverse map.  The source returns `Result` but can never
fail; the model returns the updated index directly. -/
def add_document (idx : TextIndex) (d : AssetDocument) : TextIndex :=
  let idx0 := remove_document idx d.id
  let st := (idx0.term_index, ([] : List (List Char)))
  let st := index_field d.id "filename" d.filename 2 st
  let st := index_field d.id "title" d.title (9/5) st
  let st := index_field d.id "tags" (joinSpace d.tags) (5/2) st
  let st := index_field d.id "ai_tags" (joinSpace d.ai_tags) 2 st
  let st := match d.description with
    | some desc => index_field d.id "description" desc (3/2) st
    | none => st
  let st := match d.transcription with
    | some transcript => index_field d.id "transcription" transcript (9/5) st
    | none => st
  let st := match d.ai_caption with
    | some caption => index_field d.id "ai_caption" caption (8/5) st
    | none => st
  let st := match d.extracted_text with
    | some text => index_field d.id "extracted_text" text (7/5) st
    | none => st
  let st := index_field d.id "asset_type" (assetTypeLabel d.asset_type) (6/5) st
  { idx0 with
    term_index := st.1
    document_terms := insertA idx0.document_terms d.id st.2 }

/-! ### Text search (text_search.rs, `TextIndex::search`) -/

/-- `TextIndex::calculate_term_score`: TF-IDF style score of one term in
one document, `tf * idf * avg_boost`.  `ln` stands for `f32::ln`. -/
def calculate_term_score (ln : ℚ → ℚ) (idx : TextIndex) (_term : List Char)
    (occurrences : List TermOccurrence) (doc_freq : Nat) : ℚ :=
  let tf : ℚ := occurrences.length
  let idf : ℚ := ln ((idx.document_terms.length : ℚ) / ((doc_freq : ℚ) + 1))
  let boost : ℚ :=
    (occurrences.map (fun o => o.score_boost)).sum / (occurrences.length : ℚ)
  tf * idf * boost

/-- The inner loop of `TextIndex::search` over one term's posting map:
accumulate the term score per document and append the field matches.
`doc_freq` is the posting map's size, fixed before the loop. -/
def scoreTermEntries (ln : ℚ → ℚ) (idx : TextIndex) (term : List Char)
    (doc_freq : Nat) :
    List (Nat × List TermOccurrence) →
      List (Nat × ℚ) × List (Nat × List FieldMatch) →
      List (Nat × ℚ) × List (Nat × List FieldMatch)
  | [], acc => acc
  | (did, occs) :: rest, (ds, dm) =>
    let term_score := calculate_term_score ln idx term occs doc_freq
    scoreTermEntries ln idx term doc_freq rest
      (modifyA ds did 0 (fun s => s + term_score),
        modifyA dm did []
          (fun ms => ms ++ occs.map
            (fun o => ⟨o.field, term, o.position, term_score * o.score_boost⟩)))

/-- The outer loop of `TextIndex::search`: fold `scoreTermEntries` over
every query term that is present in the index. -/
def collectScores (ln : ℚ → ℚ) (idx : TextIndex) :
    List (List Char) →
      List (Nat × ℚ) × List (Nat × List FieldMatch) →
      List (Nat × ℚ) × List (Nat × List FieldMatch)
  | [], acc => acc
  | t :: ts, acc =>
    collectScores ln idx ts
      (match lookupA idx.term_index t with
        | none => acc
        | some m => scoreTermEntries ln idx t m.length m acc)

/-- Whether every query term's posting map contains the document, the
condition tested by `TextIndex::boost_phrase_matches`. -/
def hasAllTerms (ti : TermIndexMap) (terms : List (List Char)) (did : Nat) :
    Bool :=
  terms.all (fun t =>
    match lookupA ti t with
    | some m => (lookupA m did).isSome
    | none => false)

/-- `TextIndex::boost_phrase_matches`: multiply by 1.5 the score of each
document that contains all query terms, and by a further 1.2 when the
query has more than one term. -/
def boost_phrase_matches (idx : TextIndex) (_query : List Char)
    (terms : List (List Char)) (doc_scores : List (Nat × ℚ)) :
    List (Nat × ℚ) :=
  doc_scores.map (fun p =>
    if hasAllTerms idx.term_index terms p.1 then
      (p.1, if 1 < terms.length then p.2 * (3/2) * (6/5) else p.2 * (3/2))
    else p)

/-- Stable insertion into a list sorted by `f` descending. -/
def insertByDesc {σ γ : Type} [LinearOrder γ] (f : σ → γ) (x : σ) :
    List σ → List σ
  | [] => [x]
  | y :: r => if f x ≤ f y then y :: insertByDesc f x r else x :: y :: r

/-- Sort by `f` descending, modelling
`sort_by(|a, b| b.partial_cmp(a).unwrap())`. -/
def sortByDesc {σ γ : Type} [LinearOrder γ] (f : σ → γ) (l : List σ) :
    List σ :=
  l.foldr (insertByDesc f) []

/-- `TextIndex::search`: reject short or token-free queries with an empty
`Ok` result; otherwise score every document reached by a query term,
apply the phrase boost for multi-term queries, sort by score descending
and truncate to `max_results`. -/
def search (ln : ℚ → ℚ) (idx : TextIndex) (query : List Char)
    (max_results : Nat) : Except IndexError (List TextMatch) :=
  if query.length < idx.config.min_query_length then .ok []
  else
    let terms := tokenize query
    if terms.isEmpty then .ok []
    else
      let acc := collectScores ln idx terms ([], [])
      let doc_scores := acc.1
      let doc_matches := acc.2
      let doc_scores :=
        if 1 < terms.length then
          boost_phrase_matches idx query terms doc_scores
        else doc_scores
      let results := doc_scores.map
        (fun p => TextMatch.mk p.1 p.2 ((lookupA doc_matches p.1).getD []))
      .ok ((sortByDesc (fun m => m.score) results).take max_results)

/-! ### Vector store (vector.rs) -/

/-- `EmbeddingType` (vector.rs). -/
inductive EmbeddingType
  | visual | text
  deriving DecidableEq, Repr

/-- `VectorMatch` (vector.rs). -/
structure VectorMatch where
  document_id : Nat
  similarity : ℝ
  embedding_type : EmbeddingType

/-- `VectorStore` (vector.rs): the two per-kind embedding maps and their
dimensions, each fixed on first insertion. -/
structure VectorStore where
  visual_embeddings : List (Nat × List ℝ)
  text_embeddings : List (Nat × List ℝ)
  visual_dim : Option Nat
  text_dim : Option Nat

/-- `VectorStore::new`. -/
def VectorStore.new : VectorStore :=
  { visual_embeddings := [], text_embeddings := []
    visual_dim := none, text_dim := none }

/-- `cosine_similarity` (vector.rs): dot product of two normalized
vectors; the `assert_eq!` on the lengths is modelled by `none`. -/
def cosine_similarity (a b : List ℝ) : Option ℝ :=
  if a.length = b.length then
    some (((a.zip b).map (fun p => p.1 * p.2)).sum)
  else none

/-- `normalize_vector` (vector.rs): divide by the Euclidean norm, or
return the vector unchanged when the norm is zero. -/
noncomputable def normalize_vector (vector : List ℝ) : List ℝ :=
  let magnitude := Real.sqrt ((vector.map (fun x => x * x)).sum)
  if magnitude = 0 then vector
  else vector.map (fun x => x / magnitude)

/-- `euclidean_distance` (vector.rs); `none` models the length
assertion. -/
noncomputable def euclidean_distance (a b : List ℝ) : Option ℝ :=
  if a.length = b.length then
    some (Real.sqrt (((a.zip b).map (fun p => (p.1 - p.2) ^ 2)).sum))
  else none

/-- `manhattan_distance` (vector.rs); `none` models the length
assertion. -/
def manhattan_distance (a b : List ℝ) : Option ℝ :=
  if a.length = b.length then
    some (((a.zip b).map (fun p => |p.1 - p.2|)).sum)
  else none

/-- `VectorStore::add_visual_embedding`: reject a vector whose length
differs from the established dimension; otherwise fix the dimension on
first use and store the normalized vector. -/
noncomputable def VectorStore.add_visual_embedding (s : VectorStore)
    (doc_id : Nat) (embedding : List ℝ) : Except IndexError VectorStore :=
  match s.visual_dim with
  | some expected_dim =>
    if embedding.length ≠ expected_dim then
      .error (.VectorError
        ("Visual embedding dimension mismatch: expected " ++
          toString expected_dim ++ ", got " ++ toString embedding.length))
    else
      .ok { s with
            visual_embeddings :=
              insertA s.visual_embeddings doc_id (normalize_vector embedding) }
  | none =>
    .ok { s with
          visual_dim := some embedding.length,
          visual_embeddings :=
            insertA s.visual_embeddings doc_id (normalize_vector embedding) }

/-- `VectorStore::add_text_embedding`: the text-kind twin of
`add_visual_embedding`. -/
noncomputable def VectorStore.add_text_embedding (s : VectorStore)
    (doc_id : Nat) (embedding : List ℝ) : Except IndexError VectorStore :=
  match s.text_dim with
  | some expected_dim =>
    if embedding.length ≠ expected_dim then
      .error (.VectorError
        ("Text embedding dimension mismatch: expected " ++
          toString expected_dim ++ ", got " ++ toString embedding.length))
    else
      .ok { s with
            text_embeddings :=
              insertA s.text_embeddings doc_id (normalize_vector embedding) }
  | none =>
    .ok { s with
          text_dim := some embedding.length,
          text_embeddings :=
            insertA s.text_embeddings doc_id (normalize_vector embedding) }

/-- `VectorStore::remove_document`: drop the document's entry from both
embedding maps. -/
def VectorStore.remove_document (s : VectorStore) (doc_id : Nat) :
    VectorStore :=
  { s with
    visual_embeddings := eraseA s.visual_embeddings doc_id
    text_embeddings := eraseA s.text_embeddings doc_id }

/-- The per-entry similarity pass of `find_visual_similar` and
`find_text_similar`: one `VectorMatch` per stored vector; a single
failed length assertion inside `cosine_similarity` aborts the whole
computation (`none` = panic). -/
def computeSimilarities (normalized_query : List ℝ) (et : EmbeddingType) :
    List (Nat × List ℝ) → Option (List VectorMatch)
  | [] => some []
  | p :: rest =>
    match cosine_similarity normalized_query p.2,
        computeSimilarities normalized_query et rest with
    | some sim, some ms => some (VectorMatch.mk p.1 sim et :: ms)
    | _, _ => none

/-- `VectorStore::find_visual_similar`: empty store gives an empty
result; otherwise normalize the query, compute the cosine similarity
against every stored vector, filter by `min_similarity`, sort descending
and truncate to `top_k`. -/
noncomputable def VectorStore.find_visual_similar (s : VectorStore)
    (query_embedding : List ℝ) (top_k : Nat) (min_similarity : ℝ) :
    Option (List VectorMatch) :=
  if s.visual_embeddings.isEmpty then some []
  else
    let normalized_query := normalize_vector query_embedding
    match computeSimilarities normalized_query .visual
        s.visual_embeddings with
    | none => none
    | some similarities =>
      some ((sortByDesc (fun m => m.similarity)
        (similarities.filter
          (fun m => decide (min_similarity ≤ m.similarity)))).take top_k)

/-- `VectorStore::find_text_similar`: the text-kind twin of
`find_visual_similar`. -/
noncomputable def VectorStore.find_text_similar (s : VectorStore)
    (query_embedding : List ℝ) (top_k : Nat) (min_similarity : ℝ) :
    Option (List VectorMatch) :=
  if s.text_embeddings.isEmpty then some []
  else
    let normalized_query := normalize_vector query_embedding
    match computeSimilarities normalized_query .text s.text_embeddings with
    | none => none
    | some similarities =>
      some ((sortByDesc (fun m => m.similarity)
        (similarities.filter
          (fun m => decide (min_similarity ≤ m.similarity)))).take top_k)

/-! ### Search results and hybrid merge (document.rs, lib.rs) -/

/-- `SearchResult` (document.rs), restricted to the fields the hybrid
merge reads. -/
structure SearchResult where
  document : AssetDocument
  score : ℚ
  text_score : ℚ
  tag_score : ℚ
  vector_score : ℚ
  highlights : List String
  match_reason : String
  deriving DecidableEq, Repr

/-- `SearchResult::calculate_weighted_score`: combine the component
scores with the configured weights and apply the quality bonus. -/
def SearchResult.calculate_weighted_score (r : SearchResult)
    (config : IndexConfig) : SearchResult :=
  { r with score :=
      (r.text_score * config.text_weight + r.tag_score * config.tag_weight +
        r.vector_score * config.vector_weight) * r.document.quality_score }

/-- The text pass of `IndexService::search_hybrid`: weight the result and
insert it into the accumulated map keyed by document id. -/
def hybridStepText (config : IndexConfig) (acc : List (Nat × SearchResult))
    (r : SearchResult) : List (Nat × SearchResult) :=
  insertA acc r.document.id (r.calculate_weighted_score config)

/-- How `search_hybrid` combines an existing text result with a vector
result for the same document: copy the vector score over, recompute the
combined score as `text*text_weight + vector*vector_weight`, and append
to the match reason. -/
def hybridCombine (config : IndexConfig) (existing r : SearchResult) :
    SearchResult :=
  { existing with
    vector_score := r.vector_score
    score := existing.text_score * config.text_weight +
      r.vector_score * config.vector_weight
    match_reason := existing.match_reason ++ " + Visual similarity" }

/-- The vector pass of `IndexService::search_hybrid`: weight the result,
then either combine it with an existing entry for the same document or
insert it fresh. -/
def hybridStepVector (config : IndexConfig) (acc : List (Nat × SearchResult))
    (r : SearchResult) : List (Nat × SearchResult) :=
  let r' := r.calculate_weighted_score config
  match lookupA acc r.document.id with
  | some existing => insertA acc r.document.id (hybridCombine config existing r)
  | none => insertA acc r.document.id r'

/-- The merge stage of `IndexService::search_hybrid` (lib.rs lines
267-299), taking the hydrated outputs of the text search and of the
visual-similarity search as inputs: insert every text result (weighted),
then fold in the vector results, combining a document found by both;
finally sort by score descending and truncate. -/
def search_hybrid_merge (config : IndexConfig)
    (text_results vector_results : List SearchResult) (max_results : Nat) :
    List SearchResult :=
  let all_results : List (Nat × SearchResult) :=
    text_results.foldl (hybridStepText config) []
  let all_results :=
    vector_results.foldl (hybridStepVector config) all_results
  (sortByDesc (fun r => r.score) (all_results.map Prod.snd)).take max_results

/-! ### Well-formedness of a text index

Every `TextIndex` produced by the API satisfies: the two maps have
unique keys (they model `HashMap`s), every posting map has unique keys
and is nonempty (empty ones are pruned), and every posting is mirrored
in the reverse map. -/

/-- Invariant of reachable `TextIndex` states. -/
def WF (idx : TextIndex) : Prop :=
  NodupKeys idx.term_index ∧ NodupKeys idx.document_terms ∧
  (∀ p ∈ idx.term_index, NodupKeys p.2 ∧ p.2 ≠ []) ∧
  (∀ p ∈ idx.term_index, ∀ q ∈ p.2,
    ∃ r ∈ idx.document_terms, r.1 = q.1 ∧ p.1 ∈ r.2)

instance (idx : TextIndex) : Decidable (WF idx) := by
  unfold WF NodupKeys
  infer_instance

/-- The posting list of document `did` under term `t`. -/
def docPosting (ti : TermIndexMap) (t : List Char) (did : Nat) :
    Option (List TermOccurrence) :=
  (lookupA ti t).bind (fun m => lookupA m did)

/-! ### Behaviour of `remove_document` -/

theorem eraseA_eq_nil_lookup {α β : Type} [DecidableEq α]
    (m : List (α × β)) (k k' : α) (he : eraseA m k = []) (hne : k' ≠ k) :
    lookupA m k' = none := by
  induction m with
  | nil => rfl
  | cons p r ih =>
    by_cases h1 : p.1 = k
    · rw [eraseA, if_pos h1] at he
      have : p.1 ≠ k' := by rw [h1]; exact fun h => hne h.symm
      rw [lookupA, if_neg this]
      exact ih he
    · rw [eraseA, if_neg h1] at he
      exact absurd he (List.cons_ne_nil _ _)

theorem docPosting_removeTermDoc_self (ti : TermIndexMap) (did : Nat)
    (t : List Char) : docPosting (removeTermDoc ti did t) t did = none := by
  unfold removeTermDoc
  cases h : lookupA ti t with
  | none => simp [docPosting, h]
  | some m =>
    simp only
    by_cases he : eraseA m did = []
    · simp [docPosting, he, lookupA_eraseA]
    · simp [docPosting, he, lookupA_insertA, lookupA_eraseA]

theorem docPosting_removeTermDoc_otherTerm (ti : TermIndexMap) (did did' : Nat)
    (t t' : List Char) (h : t ≠ t') :
    docPosting (removeTermDoc ti did t') t did' = docPosting ti t did' := by
  unfold removeTermDoc
  cases hl : lookupA ti t' with
  | none => rfl
  | some m =>
    simp only
    by_cases he : eraseA m did = []
    · simp [docPosting, he, lookupA_eraseA, h]
    · simp [docPosting, he, lookupA_insertA, h]

theorem docPosting_removeTermDoc_otherDoc (ti : TermIndexMap) (did did' : Nat)
    (t t' : List Char) (h : did' ≠ did) :
    docPosting (removeTermDoc ti did t') t did' = docPosting ti t did' := by
  by_cases ht : t = t'
  · subst ht
    unfold removeTermDoc
    cases hl : lookupA ti t with
    | none => rfl
    | some m =>
      simp only
      by_cases he : eraseA m did = []
      · simp [docPosting, he, lookupA_eraseA, hl,
          eraseA_eq_nil_lookup m did did' he h]
      · simp [docPosting, he, lookupA_insertA, lookupA_eraseA, hl, h]
  · exact docPosting_removeTermDoc_otherTerm ti did did' t t' ht

theorem docPosting_removeFold (ts : List (List Char)) (ti : TermIndexMap)
    (did : Nat) (t : List Char) :
    docPosting (ts.foldl (fun ti t => removeTermDoc ti did t) ti) t did =
      if t ∈ ts then none else docPosting ti t did := by
  induction ts generalizing ti with
  | nil => simp
  | cons t' ts ih =>
    rw [List.foldl_cons, ih]
    by_cases hmem : t ∈ ts
    · simp [hmem]
    · by_cases ht : t = t'
      · subst ht
        simp [hmem, docPosting_removeTermDoc_self]
      · simp [hmem, ht, docPosting_removeTermDoc_otherTerm ti did did t t' ht]

theorem docPosting_removeFold_otherDoc (ts : List (List Char))
    (ti : TermIndexMap) (did did' : Nat) (t : List Char) (h : did' ≠ did) :
    docPosting (ts.foldl (fun ti t => removeTermDoc ti did t) ti) t did' =
      docPosting ti t did' := by
  induction ts generalizing ti with
  | nil => simp
  | cons t' ts ih =>
    rw [List.foldl_cons, ih, docPosting_removeTermDoc_otherDoc ti did did' t t' h]

theorem docPosting_eq_some_elim (ti : TermIndexMap) (t : List Char)
    (did : Nat) (occs : List TermOccurrence)
    (hp : docPosting ti t did = some occs) :
    ∃ m, lookupA ti t = some m ∧ lookupA m did = some occs := by
  unfold docPosting at hp
  cases hml : lookupA ti t with
  | none => rw [hml] at hp; simp at hp
  | some m => rw [hml] at hp; exact ⟨m, rfl, hp⟩

/-- In a well-formed index, any posting for a document is mirrored by a
reverse-map entry containing the term. -/
theorem WF_posting_reverse (idx : TextIndex) (t : List Char) (did : Nat)
    (occs : List TermOccurrence) (h : WF idx)
    (hp : docPosting idx.term_index t did = some occs) :
    ∃ ts, lookupA idx.document_terms did = some ts ∧ t ∈ ts := by
  obtain ⟨hti, hdt, hmaps, hcoh⟩ := h
  obtain ⟨m, hm, hq⟩ := docPosting_eq_some_elim _ _ _ _ hp
  obtain ⟨r, hr, hr1, hrt⟩ :=
    hcoh (t, m) (lookupA_mem _ _ _ hm) (did, occs) (lookupA_mem _ _ _ hq)
  refine ⟨r.2, ?_, hrt⟩
  have hr1' : r.1 = did := hr1
  rw [← hr1']
  exact mem_lookupA _ _ _ hdt (by rw [← Prod.mk.eta (p := r)] at hr; exact hr)

/-- After `remove_document`, no posting map of a well-formed index
mentions the removed document. -/
theorem remove_document_docPosting (idx : TextIndex) (did : Nat)
    (h : WF idx) (t : List Char) :
    docPosting (remove_document idx did).term_index t did = none := by
  unfold remove_document
  cases hl : lookupA idx.document_terms did with
  | none =>
    simp only
    cases hp : docPosting idx.term_index t did with
    | none => rfl
    | some occs =>
      obtain ⟨ts, hts, -⟩ := WF_posting_reverse idx t did occs h hp
      rw [hl] at hts
      exact absurd hts (by simp)
  | some ts =>
    simp only [docPosting_removeFold]
    by_cases hmem : t ∈ ts
    · simp [hmem]
    · rw [if_neg hmem]
      cases hp : docPosting idx.term_index t did with
      | none => rfl
      | some occs =>
        obtain ⟨ts', hts', hmem'⟩ := WF_posting_reverse idx t did occs h hp
        rw [hl] at hts'
        cases hts'
        exact absurd hmem' hmem

/-- `remove_document` always clears the reverse-map entry. -/
theorem remove_document_reverse (idx : TextIndex) (did : Nat) :
    lookupA (remove_document idx did).document_terms did = none := by
  unfold remove_document
  cases hl : lookupA idx.document_terms did with
  | none => exact hl
  | some ts => simp [lookupA_eraseA]

/-- Removing a document that was never indexed changes nothing. -/
theorem remove_document_noop (idx : TextIndex) (did : Nat)
    (h : lookupA idx.document_terms did = none) :
    remove_document idx did = idx := by
  unfold remove_document
  rw [h]

/-! ### Behaviour of `add_document` -/

/-- Append fresh occurrences to an optional posting list, leaving it
unchanged when there is nothing to append. -/
def combineOpt (o : Option (List TermOccurrence)) (l : List TermOccurrence) :
    Option (List TermOccurrence) :=
  if l = [] then o else some (o.getD [] ++ l)

/-- The occurrences of term `t` in a token list starting at position
`pos`, exactly as `index_field` would record them. -/
def occsFrom (field : String) (boost : ℚ) :
    Nat → List (List Char) → List Char → List TermOccurrence
  | _, [], _ => []
  | pos, tok :: toks, t =>
    (if tok = t then [⟨field, pos, boost⟩] else []) ++
      occsFrom field boost (pos + 1) toks t

theorem combineOpt_append (o : Option (List TermOccurrence))
    (l1 l2 : List TermOccurrence) :
    combineOpt (combineOpt o l1) l2 = combineOpt o (l1 ++ l2) := by
  by_cases h1 : l1 = [] <;> by_cases h2 : l2 = [] <;>
    simp_all [combineOpt]

theorem docPosting_indexTokens (did : Nat) (field : String) (boost : ℚ)
    (pos : Nat) (toks : List (List Char)) (ti : TermIndexMap)
    (dt : List (List Char)) (t : List Char) :
    docPosting (indexTokens did field boost pos toks (ti, dt)).1 t did =
      combineOpt (docPosting ti t did) (occsFrom field boost pos toks t) := by
  induction toks generalizing pos ti dt with
  | nil => simp [indexTokens, occsFrom, combineOpt]
  | cons tok toks ih =>
    rw [indexTokens, ih]
    by_cases ht : tok = t
    · subst ht
      have hstep :
          docPosting
            (modifyA ti tok []
              (fun m => modifyA m did []
                (fun occs => occs ++ [⟨field, pos, boost⟩]))) tok did =
            combineOpt (docPosting ti tok did) [⟨field, pos, boost⟩] := by
        unfold docPosting
        rw [lookupA_modifyA, if_pos rfl]
        cases hm : lookupA ti tok with
        | none =>
          simp [lookupA_modifyA, combineOpt, lookupA]
        | some m =>
          simp only [Option.getD_some, Option.some_bind, lookupA_modifyA,
            if_pos rfl, combineOpt, Option.getD]
          cases lookupA m did <;> simp [combineOpt]
      rw [hstep, combineOpt_append]
      simp [occsFrom]
    · have hstep :
          docPosting
            (modifyA ti tok []
              (fun m => modifyA m did []
                (fun occs => occs ++ [⟨field, pos, boost⟩]))) t did =
            docPosting ti t did := by
        unfold docPosting
        rw [lookupA_modifyA, if_neg (fun h => ht h.symm)]
      rw [hstep]
      simp [occsFrom, ht]

theorem docPosting_indexTokens_otherDoc (did did' : Nat) (field : String)
    (boost : ℚ) (pos : Nat) (toks : List (List Char)) (ti : TermIndexMap)
    (dt : List (List Char)) (t : List Char) (h : did' ≠ did) :
    docPosting (indexTokens did field boost pos toks (ti, dt)).1 t did' =
      docPosting ti t did' := by
  induction toks generalizing pos ti dt with
  | nil => simp [indexTokens]
  | cons tok toks ih =>
    rw [indexTokens, ih]
    by_cases ht : tok = t
    · subst ht
      unfold docPosting
      rw [lookupA_modifyA, if_pos rfl]
      cases hm : lookupA ti tok with
      | none =>
        simp only [Option.getD_none, Option.some_bind, lookupA_modifyA,
          Option.none_bind]
        rw [if_neg h]
        simp [lookupA]
      | some m =>
        simp only [Option.getD_some, Option.some_bind, lookupA_modifyA]
        rw [if_neg h]
    · unfold docPosting
      rw [lookupA_modifyA, if_neg (fun hx => ht hx.symm)]

theorem indexTokens_snd (did : Nat) (field : String) (boost : ℚ) (pos : Nat)
    (toks : List (List Char)) (ti : TermIndexMap) (dt : List (List Char)) :
    (indexTokens did field boost pos toks (ti, dt)).2 =
      toks.foldl insertTermSet dt := by
  induction toks generalizing pos ti dt with
  | nil => simp [indexTokens]
  | cons tok toks ih => rw [indexTokens, ih, List.foldl_cons]

/-- The boosted fields of a document, in the order `add_document` indexes
them. -/
def fieldSpecs (d : AssetDocument) : List (String × List Char × ℚ) :=
  ([("filename", d.filename, 2), ("title", d.title, 9/5),
    ("tags", joinSpace d.tags, 5/2), ("ai_tags", joinSpace d.ai_tags, 2)] :
      List (String × List Char × ℚ)) ++
  ((match d.description with
    | some desc => [("description", desc, 3/2)]
    | none => []) : List (String × List Char × ℚ)) ++
  ((match d.transcription with
    | some transcript => [("transcription", transcript, 9/5)]
    | none => []) : List (String × List Char × ℚ)) ++
  ((match d.ai_caption with
    | some caption => [("ai_caption", caption, 8/5)]
    | none => []) : List (String × List Char × ℚ)) ++
  ((match d.extracted_text with
    | some text => [("extracted_text", text, 7/5)]
    | none => []) : List (String × List Char × ℚ)) ++
  [("asset_type", assetTypeLabel d.asset_type, 6/5)]

/-- Fold `index_field` over a list of field specifications. -/
def indexAllFields (did : Nat) (specs : List (String × List Char × ℚ))
    (st : TermIndexMap × List (List Char)) :
    TermIndexMap × List (List Char) :=
  specs.foldl (fun st spec => index_field did spec.1 spec.2.1 spec.2.2 st) st

/-- `add_document` is the removal followed by the field-spec fold. -/
theorem add_document_eq (idx : TextIndex) (d : AssetDocument) :
    add_document idx d =
      { remove_document idx d.id with
        term_index :=
          (indexAllFields d.id (fieldSpecs d)
            ((remove_document idx d.id).term_index, [])).1
        document_terms :=
          insertA (remove_document idx d.id).document_terms d.id
            (indexAllFields d.id (fieldSpecs d)
              ((remove_document idx d.id).term_index, [])).2 } := by
  obtain ⟨i, fn, tl, tg, ag, de, tr, cp, ex, ty, q⟩ := d
  cases de <;> cases tr <;> cases cp <;> cases ex <;> rfl

/-- All fresh occurrences of `t` across the field specifications. -/
def freshOccsSpecs (specs : List (String × List Char × ℚ)) (t : List Char) :
    List TermOccurrence :=
  (specs.map (fun spec => occsFrom spec.1 spec.2.2 0 (tokenize spec.2.1) t)).join

/-- The term set accumulated across the field specifications. -/
def termsOfSpecs (specs : List (String × List Char × ℚ))
    (dt : List (List Char)) : List (List Char) :=
  specs.foldl (fun dt spec => (tokenize spec.2.1).foldl insertTermSet dt) dt

theorem docPosting_indexAllFields (did : Nat)
    (specs : List (String × List Char × ℚ)) (ti : TermIndexMap)
    (dt : List (List Char)) (t : List Char) :
    docPosting (indexAllFields did specs (ti, dt)).1 t did =
      combineOpt (docPosting ti t did) (freshOccsSpecs specs t) := by
  induction specs generalizing ti dt with
  | nil => simp [indexAllFields, freshOccsSpecs, combineOpt]
  | cons spec specs ih =>
    rw [indexAllFields, List.foldl_cons]
    have hpair :
        index_field did spec.1 spec.2.1 spec.2.2 (ti, dt) =
          ((index_field did spec.1 spec.2.1 spec.2.2 (ti, dt)).1,
            (index_field did spec.1 spec.2.1 spec.2.2 (ti, dt)).2) := rfl
    rw [hpair]
    have := ih (index_field did spec.1 spec.2.1 spec.2.2 (ti, dt)).1
      (index_field did spec.1 spec.2.1 spec.2.2 (ti, dt)).2
    rw [indexAllFields] at this
    rw [this]
    unfold index_field
    rw [docPosting_indexTokens, combineOpt_append]
    rfl

theorem docPosting_indexAllFields_otherDoc (did did' : Nat)
    (specs : List (String × List Char × ℚ)) (ti : TermIndexMap)
    (dt : List (List Char)) (t : List Char) (h : did' ≠ did) :
    docPosting (indexAllFields did specs (ti, dt)).1 t did' =
      docPosting ti t did' := by
  induction specs generalizing ti dt with
  | nil => simp [indexAllFields]
  | cons spec specs ih =>
    rw [indexAllFields, List.foldl_cons]
    have hpair :
        index_field did spec.1 spec.2.1 spec.2.2 (ti, dt) =
          ((index_field did spec.1 spec.2.1 spec.2.2 (ti, dt)).1,
            (index_field did spec.1 spec.2.1 spec.2.2 (ti, dt)).2) := rfl
    rw [hpair]
    have := ih (index_field did spec.1 spec.2.1 spec.2.2 (ti, dt)).1
      (index_field did spec.1 spec.2.1 spec.2.2 (ti, dt)).2
    rw [indexAllFields] at this
    rw [this]
    unfold index_field
    rw [docPosting_indexTokens_otherDoc _ _ _ _ _ _ _ _ _ h]

theorem indexAllFields_snd (did : Nat)
    (specs : List (String × List Char × ℚ)) (ti : TermIndexMap)
    (dt : List (List Char)) :
    (indexAllFields did specs (ti, dt)).2 = termsOfSpecs specs dt := by
  induction specs generalizing ti dt with
  | nil => rfl
  | cons spec specs ih =>
    rw [indexAllFields, List.foldl_cons, termsOfSpecs, List.foldl_cons]
    have hpair :
        index_field did spec.1 spec.2.1 spec.2.2 (ti, dt) =
          ((index_field did spec.1 spec.2.1 spec.2.2 (ti, dt)).1,
            (index_field did spec.1 spec.2.1 spec.2.2 (ti, dt)).2) := rfl
    rw [hpair]
    have := ih (index_field did spec.1 spec.2.1 spec.2.2 (ti, dt)).1
      (index_field did spec.1 spec.2.1 spec.2.2 (ti, dt)).2
    rw [indexAllFields] at this
    rw [this]
    unfold index_field
    rw [indexTokens_snd]
    rfl

theorem mem_foldl_insertTermSet (toks : List (List Char))
    (dt : List (List Char)) (t : List Char) :
    t ∈ toks.foldl insertTermSet dt ↔ t ∈ dt ∨ t ∈ toks := by
  induction toks generalizing dt with
  | nil => simp
  | cons tok toks ih =>
    rw [List.foldl_cons, ih]
    unfold insertTermSet
    by_cases h : tok ∈ dt
    · by_cases ht : t = tok <;> simp_all
    · by_cases ht : t = tok <;> simp_all <;> tauto

theorem occsFrom_ne_nil_iff (field : String) (boost : ℚ) (pos : Nat)
    (toks : List (List Char)) (t : List Char) :
    occsFrom field boost pos toks t ≠ [] ↔ t ∈ toks := by
  induction toks generalizing pos with
  | nil => simp [occsFrom]
  | cons tok toks ih =>
    rw [occsFrom]
    by_cases h : tok = t
    · simp [h]
    · simp only [if_neg h, List.nil_append, ih, List.mem_cons]
      exact ⟨Or.inr, fun hx => hx.elim (fun hx => absurd hx.symm h) id⟩

theorem freshOccsSpecs_ne_nil_iff (specs : List (String × List Char × ℚ))
    (t : List Char) :
    freshOccsSpecs specs t ≠ [] ↔ ∃ spec ∈ specs, t ∈ tokenize spec.2.1 := by
  induction specs with
  | nil => simp [freshOccsSpecs]
  | cons spec specs ih =>
    have hstep : freshOccsSpecs (spec :: specs) t =
        occsFrom spec.1 spec.2.2 0 (tokenize spec.2.1) t ++
          freshOccsSpecs specs t := by
      simp [freshOccsSpecs]
    rw [hstep]
    constructor
    · intro h
      by_cases h1 : occsFrom spec.1 spec.2.2 0 (tokenize spec.2.1) t = []
      · have h2 : freshOccsSpecs specs t ≠ [] := by
          intro hx
          rw [h1, hx] at h
          exact h rfl
        obtain ⟨s, hs, hst⟩ := ih.mp h2
        exact ⟨s, List.mem_cons.mpr (Or.inr hs), hst⟩
      · exact ⟨spec, List.mem_cons.mpr (Or.inl rfl),
          (occsFrom_ne_nil_iff _ _ _ _ _).mp h1⟩
    · rintro ⟨s, hs, hst⟩ hnil
      rw [List.append_eq_nil] at hnil
      rcases List.mem_cons.mp hs with hs | hs
      · subst hs
        exact (occsFrom_ne_nil_iff _ _ _ _ _).mpr hst hnil.1
      · exact ih.mpr ⟨s, hs, hst⟩ hnil.2

theorem mem_termsOfSpecs (specs : List (String × List Char × ℚ))
    (dt : List (List Char)) (t : List Char) :
    t ∈ termsOfSpecs specs dt ↔ t ∈ dt ∨ ∃ spec ∈ specs, t ∈ tokenize spec.2.1 := by
  induction specs generalizing dt with
  | nil => simp [termsOfSpecs]
  | cons spec specs ih =>
    rw [termsOfSpecs, List.foldl_cons]
    have := ih ((tokenize spec.2.1).foldl insertTermSet dt)
    rw [termsOfSpecs] at this
    rw [this, mem_foldl_insertTermSet]
    constructor
    · rintro ((h | h) | ⟨s, hs, hst⟩)
      · exact Or.inl h
      · exact Or.inr ⟨spec, List.mem_cons.mpr (Or.inl rfl), h⟩
      · exact Or.inr ⟨s, List.mem_cons.mpr (Or.inr hs), hst⟩
    · rintro (h | ⟨s, hs, hst⟩)
      · exact Or.inl (Or.inl h)
      · rcases List.mem_cons.mp hs with hs | hs
        · subst hs; exact Or.inl (Or.inr hst)
        · exact Or.inr ⟨s, hs, hst⟩

theorem remove_document_of_lookup (idx : TextIndex) (did : Nat)
    (ts : List (List Char))
    (h : lookupA idx.document_terms did = some ts) :
    remove_document idx did =
      { idx with
        term_index := ts.foldl (fun ti t => removeTermDoc ti did t) idx.term_index
        document_terms := eraseA idx.document_terms did } := by
  unfold remove_document
  rw [h]

/-- A sample index state used to instantiate hypotheses of the claim
theorems at concrete inputs. -/
def sampleDoc : AssetDocument :=
  { id := 1
    filename := "vacation_photo.jpg".toList
    title := "vacation_photo.jpg".toList
    tags := ["vacation".toList, "beach".toList]
    ai_tags := []
    description := none
    transcription := none
    ai_caption := none
    extracted_text := none
    asset_type := .image
    quality_score := 1 }

/-- C1: reindexing is idempotent.  For every well-formed text-index state
and every document `d`, calling `add_document d` twice in a row leaves
exactly the same postings for `d.id` under every term, and the same
reverse-map entry for `d.id`, as calling it once: the second call first
unconditionally removes the entry recorded by the first, so no
occurrence from the first call survives. -/
theorem add_document_idempotent (idx : TextIndex) (d : AssetDocument)
    (h : WF idx) :
    (∀ t, docPosting (add_document (add_document idx d) d).term_index t d.id =
        docPosting (add_document idx d).term_index t d.id) ∧
    lookupA (add_document (add_document idx d) d).document_terms d.id =
      lookupA (add_document idx d).document_terms d.id := by
  have hTS : lookupA (add_document idx d).document_terms d.id =
      some (termsOfSpecs (fieldSpecs d) []) := by
    rw [add_document_eq]
    dsimp only
    rw [indexAllFields_snd, lookupA_insertA, if_pos rfl]
  have hA1post : ∀ t, docPosting (add_document idx d).term_index t d.id =
      combineOpt none (freshOccsSpecs (fieldSpecs d) t) := by
    intro t
    rw [add_document_eq]
    dsimp only
    rw [docPosting_indexAllFields, remove_document_docPosting idx d.id h t]
  have hA1removed : ∀ t,
      docPosting (remove_document (add_document idx d) d.id).term_index
        t d.id = none := by
    intro t
    rw [remove_document_of_lookup _ _ _ hTS]
    dsimp only
    rw [docPosting_removeFold]
    by_cases hmem : t ∈ termsOfSpecs (fieldSpecs d) []
    · rw [if_pos hmem]
    · rw [if_neg hmem, hA1post]
      have hnil : freshOccsSpecs (fieldSpecs d) t = [] := by
        by_contra hne
        exact hmem ((mem_termsOfSpecs _ _ _).mpr
          (Or.inr ((freshOccsSpecs_ne_nil_iff _ _).mp hne)))
      rw [hnil]
      rfl
  constructor
  · intro t
    rw [add_document_eq (add_document idx d) d]
    dsimp only
    rw [docPosting_indexAllFields, hA1removed t, hA1post t]
  · rw [add_document_eq (add_document idx d) d]
    dsimp only
    rw [indexAllFields_snd, lookupA_insertA, if_pos rfl, hTS]

/-- Witness for C1 at a concrete well-formed index and document. -/
theorem add_document_idempotent_witness :
    (∀ t, docPosting
        (add_document (add_document (TextIndex.new IndexConfig.default)
          sampleDoc) sampleDoc).term_index t sampleDoc.id =
      docPosting (add_document (TextIndex.new IndexConfig.default)
        sampleDoc).term_index t sampleDoc.id) ∧
    lookupA (add_document (add_document (TextIndex.new IndexConfig.default)
        sampleDoc) sampleDoc).document_terms sampleDoc.id =
      lookupA (add_document (TextIndex.new IndexConfig.default)
        sampleDoc).document_terms sampleDoc.id :=
  add_document_idempotent (TextIndex.new IndexConfig.default) sampleDoc
    (by decide)

/-! ### Supporting lemmas for removal and search membership -/

theorem mem_removeTermDoc (ti : TermIndexMap) (did : Nat) (t' : List Char)
    (q : List Char × List (Nat × List TermOccurrence))
    (h : q ∈ removeTermDoc ti did t') : q ∈ ti ∨ q.2 ≠ [] := by
  unfold removeTermDoc at h
  cases hl : lookupA ti t' with
  | none => rw [hl] at h; exact Or.inl h
  | some m =>
    rw [hl] at h
    dsimp only at h
    by_cases he : eraseA m did = []
    · rw [if_pos he] at h
      exact Or.inl (mem_eraseA _ _ _ h)
    · rw [if_neg he] at h
      rcases mem_insertA _ _ _ _ h with h | h
      · exact Or.inl h
      · exact Or.inr (by rw [h]; exact he)

theorem removeFold_no_empty (ts : List (List Char)) (ti : TermIndexMap)
    (did : Nat) (h : ∀ p ∈ ti, p.2 ≠ []) :
    ∀ p ∈ ts.foldl (fun ti t => removeTermDoc ti did t) ti, p.2 ≠ [] := by
  induction ts generalizing ti with
  | nil => simpa using h
  | cons t' ts ih =>
    rw [List.foldl_cons]
    refine ih (removeTermDoc ti did t') (fun p hp => ?_)
    rcases mem_removeTermDoc ti did t' p hp with hp | hp
    · exact h p hp
    · exact hp

theorem remove_document_no_empty (idx : TextIndex) (did : Nat) (h : WF idx) :
    ∀ p ∈ (remove_document idx did).term_index, p.2 ≠ [] := by
  unfold remove_document
  cases hl : lookupA idx.document_terms did with
  | none => exact fun p hp => (h.2.2.1 p hp).2
  | some ts =>
    exact removeFold_no_empty ts idx.term_index did
      (fun p hp => (h.2.2.1 p hp).2)

theorem scoreTermEntries_keys (ln : ℚ → ℚ) (idx : TextIndex)
    (term : List Char) (df : Nat) (m : List (Nat × List TermOccurrence))
    (ds : List (Nat × ℚ)) (dm : List (Nat × List FieldMatch)) (did' : Nat)
    (h : lookupA (scoreTermEntries ln idx term df m (ds, dm)).1 did' ≠ none) :
    lookupA ds did' ≠ none ∨ did' ∈ keysA m := by
  induction m generalizing ds dm with
  | nil => exact Or.inl h
  | cons p rest ih =>
    obtain ⟨did0, occs⟩ := p
    rw [scoreTermEntries] at h
    rcases ih _ _ h with h | h
    · rw [lookupA_modifyA] at h
      by_cases he : did' = did0
      · exact Or.inr (by rw [he]; exact List.mem_map.mpr ⟨(did0, occs), List.mem_cons_self _ _, rfl⟩)
      · rw [if_neg he] at h
        exact Or.inl h
    · exact Or.inr (by
        rcases List.mem_map.mp h with ⟨q, hq, hqe⟩
        exact List.mem_map.mpr ⟨q, List.mem_cons.mpr (Or.inr hq), hqe⟩)

theorem collectScores_keys (ln : ℚ → ℚ) (idx : TextIndex)
    (terms : List (List Char))
    (acc : List (Nat × ℚ) × List (Nat × List FieldMatch)) (did' : Nat)
    (h : lookupA (collectScores ln idx terms acc).1 did' ≠ none) :
    lookupA acc.1 did' ≠ none ∨
      ∃ t ∈ terms, docPosting idx.term_index t did' ≠ none := by
  induction terms generalizing acc with
  | nil => exact Or.inl h
  | cons t ts ih =>
    rw [collectScores] at h
    cases hl : lookupA idx.term_index t with
    | none =>
      rw [hl] at h
      rcases ih _ h with h | ⟨t', ht', hp⟩
      · exact Or.inl h
      · exact Or.inr ⟨t', List.mem_cons.mpr (Or.inr ht'), hp⟩
    | some m =>
      rw [hl] at h
      dsimp only at h
      have hacc :
          (scoreTermEntries ln idx t m.length m (acc.1, acc.2)) =
            scoreTermEntries ln idx t m.length m acc := by
        rw [Prod.mk.eta]
      rw [← hacc] at h
      rcases ih _ h with h | ⟨t', ht', hp⟩
      · rcases scoreTermEntries_keys ln idx t m.length m acc.1 acc.2 did' h
          with h | h
        · exact Or.inl h
        · refine Or.inr ⟨t, List.mem_cons.mpr (Or.inl rfl), ?_⟩
          unfold docPosting
          rw [hl, Option.some_bind]
          rw [ne_eq, lookupA_eq_none_iff]
          simpa using h
      · exact Or.inr ⟨t', List.mem_cons.mpr (Or.inr ht'), hp⟩

theorem mem_insertByDesc {σ γ : Type} [LinearOrder γ] (f : σ → γ) (x y : σ)
    (l : List σ) (h : y ∈ insertByDesc f x l) : y = x ∨ y ∈ l := by
  induction l with
  | nil => exact Or.inl (by simpa [insertByDesc] using h)
  | cons z r ih =>
    rw [insertByDesc] at h
    by_cases hc : f x ≤ f z
    · rw [if_pos hc] at h
      rcases List.mem_cons.mp h with h | h
      · exact Or.inr (List.mem_cons.mpr (Or.inl h))
      · rcases ih h with h | h
        · exact Or.inl h
        · exact Or.inr (List.mem_cons.mpr (Or.inr h))
    · rw [if_neg hc] at h
      rcases List.mem_cons.mp h with h | h
      · exact Or.inl h
      · exact Or.inr h

theorem mem_sortByDesc {σ γ : Type} [LinearOrder γ] (f : σ → γ) (y : σ)
    (l : List σ) (h : y ∈ sortByDesc f l) : y ∈ l := by
  induction l with
  | nil => simpa [sortByDesc] using h
  | cons z r ih =>
    rw [sortByDesc, List.foldr_cons] at h
    rcases mem_insertByDesc f z y _ h with h | h
    · exact List.mem_cons.mpr (Or.inl h)
    · exact List.mem_cons.mpr (Or.inr (ih h))

theorem mem_boost_phrase_matches (idx : TextIndex) (q : List Char)
    (terms : List (List Char)) (ds : List (Nat × ℚ)) (p : Nat × ℚ)
    (h : p ∈ boost_phrase_matches idx q terms ds) : ∃ p0 ∈ ds, p.1 = p0.1 := by
  unfold boost_phrase_matches at h
  rcases List.mem_map.mp h with ⟨p0, hp0, hpe⟩
  refine ⟨p0, hp0, ?_⟩
  by_cases hc : hasAllTerms idx.term_index terms p0.1 = true
  · rw [if_pos hc] at hpe
    rw [← hpe]
  · rw [if_neg hc] at hpe
    rw [← hpe]

/-- C2: for every well-formed index, `remove_document did` deletes `did`
from every term's posting map, prunes terms left with an empty posting
map, and removes the reverse-map entry, so a search never returns `did`
afterwards; removing a never-indexed id changes nothing (and is not an
error — the operation is total). -/
theorem remove_document_correct (idx : TextIndex) (did : Nat) (h : WF idx) :
    (∀ t m, lookupA (remove_document idx did).term_index t = some m →
        lookupA m did = none ∧ m ≠ []) ∧
    lookupA (remove_document idx did).document_terms did = none ∧
    (lookupA idx.document_terms did = none → remove_document idx did = idx) ∧
    (∀ (ln : ℚ → ℚ) (q : List Char) (k : Nat) (res : List TextMatch),
      search ln (remove_document idx did) q k = .ok res →
      ∀ r ∈ res, r.document_id ≠ did) := by
  refine ⟨?_, remove_document_reverse idx did, remove_document_noop idx did, ?_⟩
  · intro t m hm
    constructor
    · have hdp := remove_document_docPosting idx did h t
      unfold docPosting at hdp
      rw [hm, Option.some_bind] at hdp
      exact hdp
    · exact remove_document_no_empty idx did h (t, m) (lookupA_mem _ _ _ hm)
  · intro ln q k res hs r hr
    simp only [search] at hs
    split at hs
    · cases hs
      simp at hr
    · split at hs
      · cases hs
        simp at hr
      · cases hs
        have hr1 := List.take_subset _ _ hr
        have hr2 := mem_sortByDesc _ _ _ hr1
        rcases List.mem_map.mp hr2 with ⟨p, hp, hpe⟩
        have hid : r.document_id = p.1 := by rw [← hpe]
        have hkey : ∃ p0, p0 ∈
            (collectScores ln (remove_document idx did) (tokenize q)
              ([], [])).1 ∧ p.1 = p0.1 := by
          split at hp
          · rcases mem_boost_phrase_matches _ _ _ _ _ hp with ⟨p0, hp0, hpp⟩
            exact ⟨p0, hp0, hpp⟩
          · exact ⟨p, hp, rfl⟩
        rcases hkey with ⟨p0, hp0, hpp⟩
        have hlk : lookupA
            (collectScores ln (remove_document idx did) (tokenize q)
              ([], [])).1 p0.1 ≠ none := by
          rw [ne_eq, lookupA_eq_none_iff]
          intro hx
          exact hx (List.mem_map.mpr ⟨p0, hp0, rfl⟩)
        rcases collectScores_keys ln (remove_document idx did) (tokenize q)
            ([], []) p0.1 hlk with hx | ⟨t, -, hdp⟩
        · exact absurd rfl hx
        · intro hcon
          apply hdp
          rw [← hpp, ← hid] at *
          rw [hcon] at hdp ⊢
          exact remove_document_docPosting idx did h t

/-- Witness for C2 at a concrete well-formed index. -/
theorem remove_document_correct_witness :
    lookupA (remove_document
        (add_document (TextIndex.new IndexConfig.default) sampleDoc)
        sampleDoc.id).document_terms sampleDoc.id = none :=
  (remove_document_correct
    (add_document (TextIndex.new IndexConfig.default) sampleDoc)
    sampleDoc.id (by decide)).2.1

/-! ### The TF-IDF scoring formula (C3) -/

theorem scoreTermEntries_lookup (ln : ℚ → ℚ) (idx : TextIndex)
    (term : List Char) (df : Nat) (m : List (Nat × List TermOccurrence))
    (ds : List (Nat × ℚ)) (dm : List (Nat × List FieldMatch)) (did : Nat)
    (hn : NodupKeys m) :
    ((lookupA (scoreTermEntries ln idx term df m (ds, dm)).1 did).getD 0) =
      ((lookupA ds did).getD 0) +
        (match lookupA m did with
          | none => 0
          | some occs => calculate_term_score ln idx term occs df) := by
  induction m generalizing ds dm with
  | nil => simp [scoreTermEntries, lookupA]
  | cons p rest ih =>
    obtain ⟨did0, occs0⟩ := p
    rw [NodupKeys, List.map_cons, List.nodup_cons] at hn
    rw [scoreTermEntries, ih _ _ hn.2]
    by_cases he : did = did0
    · subst he
      have hrest : lookupA rest did = none := by
        rw [lookupA_eq_none_iff]
        exact hn.1
      rw [hrest, lookupA_modifyA, if_pos rfl]
      simp [lookupA]
    · rw [lookupA_modifyA, if_neg he]
      have : lookupA ((did0, occs0) :: rest) did = lookupA rest did := by
        rw [lookupA]
        exact if_neg (fun hx => he hx.symm)
      rw [this]

theorem collectScores_lookup (ln : ℚ → ℚ) (idx : TextIndex)
    (terms : List (List Char))
    (acc : List (Nat × ℚ) × List (Nat × List FieldMatch)) (did : Nat)
    (h : WF idx) :
    ((lookupA (collectScores ln idx terms acc).1 did).getD 0) =
      ((lookupA acc.1 did).getD 0) +
        (terms.map (fun t =>
          match lookupA idx.term_index t with
          | none => 0
          | some m =>
            match lookupA m did with
            | none => 0
            | some occs => calculate_term_score ln idx t occs m.length)).sum := by
  induction terms generalizing acc with
  | nil => simp [collectScores]
  | cons t ts ih =>
    rw [collectScores]
    cases hl : lookupA idx.term_index t with
    | none =>
      dsimp only
      rw [ih acc]
      simp [hl]
    | some m =>
      dsimp only
      have hnm : NodupKeys m := (h.2.2.1 (t, m) (lookupA_mem _ _ _ hl)).1
      rw [ih (scoreTermEntries ln idx t m.length m acc)]
      have hsc : ((lookupA (scoreTermEntries ln idx t m.length m acc).1
            did).getD 0) =
          ((lookupA acc.1 did).getD 0) +
            (match lookupA m did with
              | none => 0
              | some occs => calculate_term_score ln idx t occs m.length) := by
        conv_lhs => rw [← Prod.mk.eta (p := acc)]
        exact scoreTermEntries_lookup ln idx t m.length m acc.1 acc.2 did hnm
      rw [hsc]
      simp only [List.map_cons, List.sum_cons, hl]
      rw [add_assoc]

/-- C3: in `TextIndex::search`, for every query term present in the
index, each matching document's posting list contributes
`tf * idf * avg_boost`, where `tf` is the number of occurrences of the
term in that document, `idf = ln(total_documents / (doc_freq + 1))` with
`total_documents` the size of the reverse map and `doc_freq` the size of
the term's posting map, and `avg_boost` is the mean of the per-occurrence
field boosts; these per-term scores are summed per document over all
query terms. -/
theorem search_score_formula (ln : ℚ → ℚ) (idx : TextIndex)
    (terms : List (List Char)) (did : Nat) (h : WF idx) :
    ((lookupA (collectScores ln idx terms ([], [])).1 did).getD 0) =
      (terms.map (fun t =>
        match lookupA idx.term_index t with
        | none => 0
        | some m =>
          match lookupA m did with
          | none => 0
          | some occs =>
            ((occs.length : ℚ)) *
              ln ((idx.document_terms.length : ℚ) / ((m.length : ℚ) + 1)) *
              ((occs.map (fun o => o.score_boost)).sum /
                (occs.length : ℚ)))).sum := by
  rw [collectScores_lookup ln idx terms ([], []) did h]
  simp only [lookupA, Option.getD_none, zero_add]
  rfl

/-- Witness for C3 at a concrete index, query-term list and `ln`. -/
theorem search_score_formula_witness :
    ((lookupA (collectScores (fun _ => 1)
        (add_document (TextIndex.new IndexConfig.default) sampleDoc)
        (tokenize "vacation beach".toList) ([], [])).1 1).getD 0) =
      ((tokenize "vacation beach".toList).map (fun t =>
        match lookupA (add_document (TextIndex.new IndexConfig.default)
            sampleDoc).term_index t with
        | none => 0
        | some m =>
          match lookupA m 1 with
          | none => 0
          | some occs =>
            ((occs.length : ℚ)) *
              (fun (_ : ℚ) => (1 : ℚ))
                (((add_document (TextIndex.new IndexConfig.default)
                    sampleDoc).document_terms.length : ℚ) /
                  ((m.length : ℚ) + 1)) *
              ((occs.map (fun o => o.score_boost)).sum /
                (occs.length : ℚ)))).sum :=
  search_score_formula (fun _ => 1)
    (add_document (TextIndex.new IndexConfig.default) sampleDoc)
    (tokenize "vacation beach".toList) 1 (by decide)

/-! ### The phrase boost (C7) -/

/-- C7: in a search whose query tokenizes to more than one term, every
candidate document containing all query terms has its summed score
multiplied by 1.5 and, the query having more than one term, by a further
1.2; a document lacking at least one query term keeps its score
unchanged.  `hasAllTerms` is additionally characterised as "every query
term's posting map contains the document". -/
theorem boost_phrase_matches_spec (idx : TextIndex) (q : List Char)
    (terms : List (List Char)) (ds : List (Nat × ℚ))
    (h : 1 < terms.length) :
    boost_phrase_matches idx q terms ds =
      ds.map (fun p =>
        if hasAllTerms idx.term_index terms p.1 then
          (p.1, p.2 * (3/2) * (6/5))
        else p) ∧
    (∀ did, hasAllTerms idx.term_index terms did = true ↔
      ∀ t ∈ terms, docPosting idx.term_index t did ≠ none) := by
  constructor
  · unfold boost_phrase_matches
    simp [h]
  · intro did
    unfold hasAllTerms
    rw [List.all_eq_true]
    constructor
    · intro hall t ht
      have := hall t ht
      unfold docPosting
      cases hl : lookupA idx.term_index t with
      | none => rw [hl] at this; exact absurd this (by simp)
      | some m =>
        rw [hl] at this
        dsimp only at this
        rw [Option.some_bind]
        intro hx
        rw [hx] at this
        exact absurd this (by simp)
    · intro hall t ht
      have := hall t ht
      unfold docPosting at this
      cases hl : lookupA idx.term_index t with
      | none => rw [hl, Option.none_bind] at this; exact absurd rfl this
      | some m =>
        rw [hl, Option.some_bind] at this
        dsimp only
        cases hx : lookupA m did with
        | none => exact absurd hx this
        | some v => rfl

/-- Witness for C7 at a concrete two-term query. -/
theorem boost_phrase_matches_spec_witness :
    boost_phrase_matches (TextIndex.new IndexConfig.default) []
        ["ab".toList, "cd".toList] [(1, 10)] =
      [(1, 10)].map (fun p =>
        if hasAllTerms (TextIndex.new IndexConfig.default).term_index
            ["ab".toList, "cd".toList] p.1 then
          (p.1, p.2 * (3/2) * (6/5))
        else p) ∧
    (∀ did, hasAllTerms (TextIndex.new IndexConfig.default).term_index
        ["ab".toList, "cd".toList] did = true ↔
      ∀ t ∈ ["ab".toList, "cd".toList],
        docPosting (TextIndex.new IndexConfig.default).term_index t did ≠
          none) :=
  boost_phrase_matches_spec (TextIndex.new IndexConfig.default) []
    ["ab".toList, "cd".toList] [(1, 10)] (by decide)

/-! ### Short and empty queries (C9) -/

/-- C9: `search` returns `Ok` with an empty result list — never an
error — whenever the query is shorter than the configured
`min_query_length` or tokenizes to no terms. -/
theorem search_short_query_empty (ln : ℚ → ℚ) (idx : TextIndex)
    (q : List Char) (k : Nat)
    (h : q.length < idx.config.min_query_length ∨ tokenize q = []) :
    search ln idx q k = .ok [] := by
  unfold search
  rcases h with h | h
  · rw [if_pos h]
  · by_cases h1 : q.length < idx.config.min_query_length
    · rw [if_pos h1]
    · rw [if_neg h1]
      simp [h]

/-- Witness for C9: a one-character query under the default minimum
length of 2. -/
theorem search_short_query_empty_witness :
    search (fun _ => 0) (TextIndex.new IndexConfig.default) ['x'] 10 =
      .ok [] :=
  search_short_query_empty (fun _ => 0) (TextIndex.new IndexConfig.default)
    ['x'] 10 (Or.inl (by decide))

/-! ### The tokenizer refinement (C8) -/

/-- The tokenizer as the specification words it: lower-case the text,
split it on whitespace, strip from each word every character that is not
alphanumeric, a hyphen or an underscore, and discard a result shorter
than 2 characters. -/
def tokenizeSpec (text : List Char) : List (List Char) :=
  (splitWhitespace (text.map Char.toLower)).filterMap (fun word =>
    let cleaned := word.filter
      (fun c => c.isAlphanum || c = '-' || c = '_')
    if cleaned.length < 2 then none else some cleaned)

theorem filter_length_map_eq_filterMap (f : List Char → List Char)
    (l : List (List Char)) :
    (l.map f).filter (fun t => 2 ≤ t.length) =
      l.filterMap (fun w =>
        if (f w).length < 2 then none else some (f w)) := by
  induction l with
  | nil => rfl
  | cons w r ih =>
    rw [List.map_cons, List.filter_cons, List.filterMap_cons]
    by_cases h : (f w).length < 2
    · have h2 : ¬ 2 ≤ (f w).length := by omega
      simp [h, h2, ih]
    · have h2 : 2 ≤ (f w).length := by omega
      simp [h, h2, ih]

/-- C8: the tokenizer lower-cases, splits on whitespace, strips all
characters other than alphanumerics, `-` and `_`, and discards tokens
shorter than 2 characters (it coincides with the specification's
formulation); every produced token is at least 2 characters of the kept
alphabet; and the indexing path consumes exactly the same tokenizer
output as the query path does. -/
theorem tokenize_spec_consistent :
    (∀ text, tokenize text = tokenizeSpec text) ∧
    (∀ text tok, tok ∈ tokenize text →
      2 ≤ tok.length ∧ ∀ c ∈ tok, keepChar c = true) ∧
    (∀ did field text boost st,
      index_field did field text boost st =
        indexTokens did field boost 0 (tokenize text) st) := by
  refine ⟨?_, ?_, fun _ _ _ _ _ => rfl⟩
  · intro text
    unfold tokenize tokenizeSpec
    rw [filter_length_map_eq_filterMap]
    unfold keepChar
    rfl
  · intro text tok htok
    unfold tokenize at htok
    have hlen := List.of_mem_filter htok
    have hmem := List.mem_of_mem_filter htok
    rcases List.mem_map.mp hmem with ⟨w, -, hwe⟩
    refine ⟨by simpa using hlen, ?_⟩
    intro c hc
    rw [← hwe] at hc
    exact List.of_mem_filter hc

/-! ### Vector-store properties (C5, C6, C10) -/

theorem normalize_vector_length (v : List ℝ) :
    (normalize_vector v).length = v.length := by
  unfold normalize_vector
  by_cases h : Real.sqrt ((v.map (fun x => x * x)).sum) = 0 <;> simp [h]

/-- C5: for each embedding kind, the first `add_embedding` call fixes the
store's dimension to the supplied vector's length; every later call with
a vector of a different length returns `VectorError` (so no updated
store is produced: the vector is neither stored, truncated nor padded),
while a first or matching-length call succeeds and stores a vector of
exactly the supplied length. -/
theorem add_embedding_dimension (s : VectorStore) (did : Nat) (v : List ℝ) :
    (∀ n, s.visual_dim = some n → v.length ≠ n →
      s.add_visual_embedding did v = .error (IndexError.VectorError
        ("Visual embedding dimension mismatch: expected " ++ toString n ++
          ", got " ++ toString v.length))) ∧
    (∀ n, s.text_dim = some n → v.length ≠ n →
      s.add_text_embedding did v = .error (IndexError.VectorError
        ("Text embedding dimension mismatch: expected " ++ toString n ++
          ", got " ++ toString v.length))) ∧
    (s.visual_dim = none →
      ∃ s', s.add_visual_embedding did v = .ok s' ∧
        s'.visual_dim = some v.length ∧
        (lookupA s'.visual_embeddings did).map List.length =
          some v.length) ∧
    (s.text_dim = none →
      ∃ s', s.add_text_embedding did v = .ok s' ∧
        s'.text_dim = some v.length ∧
        (lookupA s'.text_embeddings did).map List.length = some v.length) ∧
    (∀ n, s.visual_dim = some n → v.length = n →
      ∃ s', s.add_visual_embedding did v = .ok s' ∧
        s'.visual_dim = some n ∧
        (lookupA s'.visual_embeddings did).map List.length =
          some v.length) ∧
    (∀ n, s.text_dim = some n → v.length = n →
      ∃ s', s.add_text_embedding did v = .ok s' ∧
        s'.text_dim = some n ∧
        (lookupA s'.text_embeddings did).map List.length = some v.length) := by
  refine ⟨?_, ?_, ?_, ?_, ?_, ?_⟩
  · intro n hn hlen
    unfold VectorStore.add_visual_embedding
    rw [hn]
    dsimp only
    rw [if_pos hlen]
  · intro n hn hlen
    unfold VectorStore.add_text_embedding
    rw [hn]
    dsimp only
    rw [if_pos hlen]
  · intro hn
    unfold VectorStore.add_visual_embedding
    rw [hn]
    refine ⟨_, rfl, rfl, ?_⟩
    dsimp only
    rw [lookupA_insertA, if_pos rfl]
    simp [normalize_vector_length]
  · intro hn
    unfold VectorStore.add_text_embedding
    rw [hn]
    refine ⟨_, rfl, rfl, ?_⟩
    dsimp only
    rw [lookupA_insertA, if_pos rfl]
    simp [normalize_vector_length]
  · intro n hn hlen
    unfold VectorStore.add_visual_embedding
    rw [hn]
    dsimp only
    rw [if_neg (by rw [hlen]; exact fun h => h rfl)]
    refine ⟨_, rfl, rfl, ?_⟩
    dsimp only
    rw [lookupA_insertA, if_pos rfl]
    simp [normalize_vector_length]
  · intro n hn hlen
    unfold VectorStore.add_text_embedding
    rw [hn]
    dsimp only
    rw [if_neg (by rw [hlen]; exact fun h => h rfl)]
    refine ⟨_, rfl, rfl, ?_⟩
    dsimp only
    rw [lookupA_insertA, if_pos rfl]
    simp [normalize_vector_length]

/-- Witness for C5: a store with established visual dimension 2 rejects
a 3-component vector. -/
theorem add_embedding_dimension_witness :
    (VectorStore.mk [(0, [1, 0])] [] (some 2) none).add_visual_embedding 1
        [1, 2, 3] =
      .error (IndexError.VectorError
        ("Visual embedding dimension mismatch: expected " ++ toString 2 ++
          ", got " ++ toString (([1, 2, 3] : List ℝ).length))) :=
  (add_embedding_dimension (VectorStore.mk [(0, [1, 0])] [] (some 2) none)
    1 [1, 2, 3]).1 2 rfl (by decide)

theorem sum_squares_nonneg (v : List ℝ) :
    0 ≤ (v.map (fun x => x * x)).sum :=
  List.sum_nonneg (fun y hy => by
    rcases List.mem_map.mp hy with ⟨x, -, hx⟩
    rw [← hx]
    exact mul_self_nonneg x)

theorem sum_squares_pos (v : List ℝ) (h : ∃ x ∈ v, x ≠ 0) :
    0 < (v.map (fun x => x * x)).sum := by
  induction v with
  | nil => simp at h
  | cons a r ih =>
    rw [List.map_cons, List.sum_cons]
    rcases h with ⟨x, hx, hxe⟩
    rcases List.mem_cons.mp hx with hx | hx
    · subst hx
      exact add_pos_of_pos_of_nonneg (mul_self_pos.mpr hxe)
        (sum_squares_nonneg r)
    · exact add_pos_of_nonneg_of_pos (mul_self_nonneg a) (ih ⟨x, hx, hxe⟩)

theorem sum_squares_div (v : List ℝ) (m : ℝ) (hm : m ≠ 0) :
    ((v.map (fun x => x / m)).map (fun x => x * x)).sum =
      (v.map (fun x => x * x)).sum / (m * m) := by
  induction v with
  | nil => simp
  | cons a r ih =>
    rw [List.map_cons, List.map_cons, List.sum_cons, List.map_cons,
      List.sum_cons, ih]
    field_simp
    try ring

theorem zip_self_mul_sum (u : List ℝ) :
    ((u.zip u).map (fun p => p.1 * p.2)).sum = (u.map (fun x => x * x)).sum := by
  induction u with
  | nil => simp
  | cons a r ih => simp [List.zip_cons_cons, ih]

/-- C6: for every non-zero vector, `normalize_vector` produces a vector
of Euclidean norm exactly 1, and the cosine similarity of that
normalized vector with itself is exactly 1 — in particular within the
`1e-6` floating-point tolerance; a zero vector is returned unchanged
instead of causing a division by zero. -/
theorem normalize_cosine_self (v : List ℝ) :
    ((∃ x ∈ v, x ≠ 0) →
      Real.sqrt (((normalize_vector v).map (fun x => x * x)).sum) = 1 ∧
      ∃ c, cosine_similarity (normalize_vector v) (normalize_vector v) =
          some c ∧ c = 1 ∧ |c - 1| < 1 / 1000000) ∧
    ((∀ x ∈ v, x = 0) → normalize_vector v = v) := by
  constructor
  · intro h
    have hpos : 0 < (v.map (fun x => x * x)).sum := sum_squares_pos v h
    have hms : 0 < Real.sqrt ((v.map (fun x => x * x)).sum) :=
      Real.sqrt_pos.mpr hpos
    have hmne : Real.sqrt ((v.map (fun x => x * x)).sum) ≠ 0 :=
      ne_of_gt hms
    have hnv : normalize_vector v =
        v.map (fun x => x / Real.sqrt ((v.map (fun x => x * x)).sum)) := by
      unfold normalize_vector
      rw [if_neg hmne]
    have hsum : ((normalize_vector v).map (fun x => x * x)).sum = 1 := by
      rw [hnv, sum_squares_div v _ hmne,
        Real.mul_self_sqrt (le_of_lt hpos), div_self (ne_of_gt hpos)]
    constructor
    · rw [hsum, Real.sqrt_one]
    · refine ⟨1, ?_, rfl, by norm_num⟩
      unfold cosine_similarity
      rw [if_pos rfl, zip_self_mul_sum, hsum]
  · intro h
    unfold normalize_vector
    have hz : (v.map (fun x => x * x)).sum = 0 := by
      apply List.sum_eq_zero
      intro y hy
      rcases List.mem_map.mp hy with ⟨x, hx, hxe⟩
      rw [← hxe, h x hx, mul_zero]
    rw [hz, Real.sqrt_zero, if_pos rfl]

/-- Witness for C6 at the vector `[3, 4]`. -/
theorem normalize_cosine_self_witness :
    Real.sqrt (((normalize_vector [3, 4]).map (fun x => x * x)).sum) = 1 ∧
    ∃ c, cosine_similarity (normalize_vector [3, 4])
        (normalize_vector [3, 4]) = some c ∧ c = 1 ∧ |c - 1| < 1 / 1000000 :=
  (normalize_cosine_self [3, 4]).1
    ⟨3, by simp, by norm_num⟩

theorem computeSimilarities_none (nq : List ℝ) (et : EmbeddingType)
    (emb : List (Nat × List ℝ)) (p : Nat × List ℝ) (hp : p ∈ emb)
    (hne : nq.length ≠ p.2.length) :
    computeSimilarities nq et emb = none := by
  induction emb with
  | nil => simp at hp
  | cons q rest ih =>
    rw [computeSimilarities]
    rcases List.mem_cons.mp hp with hp | hp
    · subst hp
      have hc : cosine_similarity nq p.2 = none := by
        unfold cosine_similarity
        rw [if_neg hne]
      rw [hc]
    · rw [ih hp]
      cases cosine_similarity nq q.2 <;> rfl

theorem computeSimilarities_some (nq : List ℝ) (et : EmbeddingType)
    (emb : List (Nat × List ℝ)) (h : ∀ p ∈ emb, nq.length = p.2.length) :
    ∃ l, computeSimilarities nq et emb = some l := by
  induction emb with
  | nil => exact ⟨[], rfl⟩
  | cons q rest ih =>
    rw [computeSimilarities]
    have hc : cosine_similarity nq q.2 =
        some (((nq.zip q.2).map (fun p => p.1 * p.2)).sum) := by
      unfold cosine_similarity
      rw [if_pos (h q (List.mem_cons_self _ _))]
    obtain ⟨l, hl⟩ := ih (fun p hp => h p (List.mem_cons.mpr (Or.inr hp)))
    rw [hc, hl]
    exact ⟨_, rfl⟩

/-- C10: `cosine_similarity` (and the auxiliary `euclidean_distance` and
`manhattan_distance`) asserts that its two vectors have equal length, so
`find_visual_similar` / `find_text_similar` on a non-empty store whose
established dimension differs from the query length panics (modelled by
`none`) rather than returning a `VectorError`; when the query length
equals the store dimension the computation is total and the assertion
branch is unreachable. -/
theorem similarity_length_assertion :
    (∀ a b : List ℝ, a.length ≠ b.length →
      cosine_similarity a b = none ∧ euclidean_distance a b = none ∧
        manhattan_distance a b = none) ∧
    (∀ a b : List ℝ, a.length = b.length →
      (∃ x, cosine_similarity a b = some x) ∧
      (∃ x, euclidean_distance a b = some x) ∧
      (∃ x, manhattan_distance a b = some x)) ∧
    (∀ (s : VectorStore) (q : List ℝ) (k : Nat) (ms : ℝ) (n : Nat),
      s.visual_dim = some n →
      (∀ p ∈ s.visual_embeddings, p.2.length = n) →
      s.visual_embeddings ≠ [] →
      (q.length ≠ n → s.find_visual_similar q k ms = none) ∧
      (q.length = n → ∃ l, s.find_visual_similar q k ms = some l)) ∧
    (∀ (s : VectorStore) (q : List ℝ) (k : Nat) (ms : ℝ) (n : Nat),
      s.text_dim = some n →
      (∀ p ∈ s.text_embeddings, p.2.length = n) →
      s.text_embeddings ≠ [] →
      (q.length ≠ n → s.find_text_similar q k ms = none) ∧
      (q.length = n → ∃ l, s.find_text_similar q k ms = some l)) := by
  refine ⟨?_, ?_, ?_, ?_⟩
  · intro a b h
    exact ⟨by unfold cosine_similarity; rw [if_neg h],
      by unfold euclidean_distance; rw [if_neg h],
      by unfold manhattan_distance; rw [if_neg h]⟩
  · intro a b h
    exact ⟨⟨_, by unfold cosine_similarity; rw [if_pos h]⟩,
      ⟨_, by unfold euclidean_distance; rw [if_pos h]⟩,
      ⟨_, by unfold manhattan_distance; rw [if_pos h]⟩⟩
  · intro s q k ms n hdim hall hne
    unfold VectorStore.find_visual_similar
    rw [if_neg (by simpa [List.isEmpty_iff] using hne)]
    constructor
    · intro hq
      cases hemb : s.visual_embeddings with
      | nil => exact absurd hemb hne
      | cons p rest =>
        have hcn : computeSimilarities (normalize_vector q) .visual
            s.visual_embeddings = none := by
          refine computeSimilarities_none _ _ _ p
            (by rw [hemb]; exact List.mem_cons_self _ _) ?_
          rw [normalize_vector_length]
          rw [hall p (by rw [hemb]; exact List.mem_cons_self _ _)]
          exact hq
        rw [hemb] at hcn
        simp [hcn]
    · intro hq
      obtain ⟨l, hl⟩ := computeSimilarities_some (normalize_vector q)
        .visual s.visual_embeddings
        (fun p hp => by rw [normalize_vector_length, hall p hp]; exact hq)
      simp only [hl]
      exact ⟨_, rfl⟩
  · intro s q k ms n hdim hall hne
    unfold VectorStore.find_text_similar
    rw [if_neg (by simpa [List.isEmpty_iff] using hne)]
    constructor
    · intro hq
      cases hemb : s.text_embeddings with
      | nil => exact absurd hemb hne
      | cons p rest =>
        have hcn : computeSimilarities (normalize_vector q) .text
            s.text_embeddings = none := by
          refine computeSimilarities_none _ _ _ p
            (by rw [hemb]; exact List.mem_cons_self _ _) ?_
          rw [normalize_vector_length]
          rw [hall p (by rw [hemb]; exact List.mem_cons_self _ _)]
          exact hq
        rw [hemb] at hcn
        simp [hcn]
    · intro hq
      obtain ⟨l, hl⟩ := computeSimilarities_some (normalize_vector q)
        .text s.text_embeddings
        (fun p hp => by rw [normalize_vector_length, hall p hp]; exact hq)
      simp only [hl]
      exact ⟨_, rfl⟩

/-- Witness for C10: a store of visual dimension 2 panics on a
3-component query. -/
theorem similarity_length_assertion_witness :
    (VectorStore.mk [(0, [1, 0])] [] (some 2) none).find_visual_similar
        [1, 2, 3] 5 0 = none :=
  ((similarity_length_assertion.2.2.1
      (VectorStore.mk [(0, [1, 0])] [] (some 2) none)
      [1, 2, 3] 5 0 2 rfl (by simp) (by simp)).1 (by decide))

/-! ### Characterisation of the hybrid merge (C4) -/

/-- First result in the list for a given document id. -/
def findRes (l : List SearchResult) (did : Nat) : Option SearchResult :=
  l.find? (fun r => decide (r.document.id = did))

theorem foldText_skip (config : IndexConfig) (l : List SearchResult)
    (acc : List (Nat × SearchResult)) (did : Nat)
    (h : ∀ r ∈ l, r.document.id ≠ did) :
    lookupA (l.foldl (hybridStepText config) acc) did = lookupA acc did := by
  induction l generalizing acc with
  | nil => rfl
  | cons r rest ih =>
    rw [List.foldl_cons, ih _ (fun x hx => h x (List.mem_cons.mpr (Or.inr hx)))]
    unfold hybridStepText
    rw [lookupA_insertA, if_neg (fun hx => h r (List.mem_cons_self _ _) hx.symm)]

theorem foldText_lookup (config : IndexConfig) (l : List SearchResult)
    (acc : List (Nat × SearchResult)) (did : Nat)
    (hn : (l.map (fun r => r.document.id)).Nodup) :
    lookupA (l.foldl (hybridStepText config) acc) did =
      match findRes l did with
      | some r => some (r.calculate_weighted_score config)
      | none => lookupA acc did := by
  induction l generalizing acc with
  | nil => rfl
  | cons r rest ih =>
    rw [List.map_cons, List.nodup_cons] at hn
    rw [List.foldl_cons]
    by_cases he : r.document.id = did
    · have hskip : ∀ x ∈ rest, x.document.id ≠ did := by
        intro x hx hxe
        exact hn.1 (by rw [he, ← hxe]; exact List.mem_map_of_mem _ hx)
      rw [foldText_skip config rest _ did hskip]
      unfold hybridStepText
      rw [lookupA_insertA, if_pos he.symm]
      unfold findRes
      rw [List.find?_cons_of_pos _ (by simpa using he)]
    · rw [ih _ hn.2]
      unfold findRes
      rw [List.find?_cons_of_neg _ (by simpa using he)]
      cases rest.find? (fun x => decide (x.document.id = did)) with
      | none =>
        dsimp only
        unfold hybridStepText
        rw [lookupA_insertA, if_neg (fun hx => he hx.symm)]
      | some x => rfl

theorem foldVector_skip (config : IndexConfig) (l : List SearchResult)
    (acc : List (Nat × SearchResult)) (did : Nat)
    (h : ∀ r ∈ l, r.document.id ≠ did) :
    lookupA (l.foldl (hybridStepVector config) acc) did = lookupA acc did := by
  induction l generalizing acc with
  | nil => rfl
  | cons r rest ih =>
    rw [List.foldl_cons, ih _ (fun x hx => h x (List.mem_cons.mpr (Or.inr hx)))]
    have hr := h r (List.mem_cons_self _ _)
    unfold hybridStepVector
    cases lookupA acc r.document.id with
    | none =>
      dsimp only
      rw [lookupA_insertA, if_neg (fun hx => hr hx.symm)]
    | some existing =>
      dsimp only
      rw [lookupA_insertA, if_neg (fun hx => hr hx.symm)]

theorem foldVector_lookup (config : IndexConfig) (l : List SearchResult)
    (acc : List (Nat × SearchResult)) (did : Nat)
    (hn : (l.map (fun r => r.document.id)).Nodup) :
    lookupA (l.foldl (hybridStepVector config) acc) did =
      match findRes l did with
      | some r =>
        match lookupA acc did with
        | some existing => some (hybridCombine config existing r)
        | none => some (r.calculate_weighted_score config)
      | none => lookupA acc did := by
  induction l generalizing acc with
  | nil => rfl
  | cons r rest ih =>
    rw [List.map_cons, List.nodup_cons] at hn
    rw [List.foldl_cons]
    by_cases he : r.document.id = did
    · have hskip : ∀ x ∈ rest, x.document.id ≠ did := by
        intro x hx hxe
        exact hn.1 (by rw [he, ← hxe]; exact List.mem_map_of_mem _ hx)
      rw [foldVector_skip config rest _ did hskip]
      unfold findRes
      rw [List.find?_cons_of_pos _ (by simpa using he)]
      unfold hybridStepVector
      rw [he]
      cases lookupA acc did with
      | none =>
        dsimp only
        rw [lookupA_insertA, if_pos rfl]
      | some existing =>
        dsimp only
        rw [lookupA_insertA, if_pos rfl]
    · rw [ih _ hn.2]
      unfold findRes
      rw [List.find?_cons_of_neg _ (by simpa using he)]
      have hacc : lookupA (hybridStepVector config acc r) did =
          lookupA acc did := by
        unfold hybridStepVector
        cases lookupA acc r.document.id with
        | none =>
          dsimp only
          rw [lookupA_insertA, if_neg (fun hx => he hx.symm)]
        | some existing =>
          dsimp only
          rw [lookupA_insertA, if_neg (fun hx => he hx.symm)]
      cases rest.find? (fun x => decide (x.document.id = did)) with
      | none => dsimp only; exact hacc
      | some x => dsimp only; rw [hacc]

/-- The merged map of `search_hybrid`, characterised per document id. -/
theorem search_hybrid_lookup (config : IndexConfig)
    (tr vr : List SearchResult) (did : Nat)
    (hnt : (tr.map (fun r => r.document.id)).Nodup)
    (hnv : (vr.map (fun r => r.document.id)).Nodup) :
    lookupA (vr.foldl (hybridStepVector config)
        (tr.foldl (hybridStepText config) [])) did =
      match findRes tr did, findRes vr did with
      | some t, some v =>
        some (hybridCombine config (t.calculate_weighted_score config) v)
      | some t, none => some (t.calculate_weighted_score config)
      | none, some v => some (v.calculate_weighted_score config)
      | none, none => none := by
  rw [foldVector_lookup config vr _ did hnv,
    foldText_lookup config tr [] did hnt]
  cases findRes tr did <;> cases findRes vr did <;> rfl

theorem pairwise_insertByDesc {σ γ : Type} [LinearOrder γ] (f : σ → γ)
    (x : σ) (l : List σ) (h : l.Pairwise (fun a b => f b ≤ f a)) :
    (insertByDesc f x l).Pairwise (fun a b => f b ≤ f a) := by
  induction l with
  | nil => simp [insertByDesc]
  | cons y r ih =>
    rw [List.pairwise_cons] at h
    rw [insertByDesc]
    by_cases hc : f x ≤ f y
    · rw [if_pos hc, List.pairwise_cons]
      refine ⟨fun z hz => ?_, ih h.2⟩
      rcases mem_insertByDesc f x z r hz with hz | hz
      · rw [hz]; exact hc
      · exact h.1 z hz
    · rw [if_neg hc, List.pairwise_cons]
      refine ⟨fun z hz => ?_, List.pairwise_cons.mpr h⟩
      rcases List.mem_cons.mp hz with hz | hz
      · rw [hz]; exact le_of_lt (lt_of_not_le hc)
      · exact le_trans (h.1 z hz) (le_of_lt (lt_of_not_le hc))

theorem pairwise_sortByDesc {σ γ : Type} [LinearOrder γ] (f : σ → γ)
    (l : List σ) :
    (sortByDesc f l).Pairwise (fun a b => f b ≤ f a) := by
  induction l with
  | nil => simp [sortByDesc]
  | cons x r ih =>
    rw [sortByDesc, List.foldr_cons]
    exact pairwise_insertByDesc f x _ ih

theorem nodupKeys_foldText (config : IndexConfig) (l : List SearchResult)
    (acc : List (Nat × SearchResult)) (h : NodupKeys acc) :
    NodupKeys (l.foldl (hybridStepText config) acc) := by
  induction l generalizing acc with
  | nil => exact h
  | cons r rest ih =>
    rw [List.foldl_cons]
    exact ih _ (nodupKeys_insertA _ _ _ h)

theorem nodupKeys_foldVector (config : IndexConfig) (l : List SearchResult)
    (acc : List (Nat × SearchResult)) (h : NodupKeys acc) :
    NodupKeys (l.foldl (hybridStepVector config) acc) := by
  induction l generalizing acc with
  | nil => exact h
  | cons r rest ih =>
    rw [List.foldl_cons]
    refine ih _ ?_
    unfold hybridStepVector
    cases lookupA acc r.document.id with
    | none => exact nodupKeys_insertA _ _ _ h
    | some existing => exact nodupKeys_insertA _ _ _ h

/-- A document with quality score 2, exhibiting the quality bonus that
`calculate_weighted_score` applies to single-source hybrid results. -/
def hybridDoc : AssetDocument :=
  { id := 7
    filename := []
    title := []
    tags := []
    ai_tags := []
    description := none
    transcription := none
    ai_caption := none
    extracted_text := none
    asset_type := .image
    quality_score := 2 }

/-- A text-search result for `hybridDoc` with text score 5. -/
def hybridTextResult : SearchResult :=
  { document := hybridDoc
    score := 5
    text_score := 5
    tag_score := 0
    vector_score := 0
    highlights := []
    match_reason := "Text match in: tags" }

/-- C4 counterexample: a document found only by the text search does not
contribute `text_score * text_weight` as the claim states; the code
multiplies the weighted component by the document's quality score.  With
the default configuration (`text_weight = 1`) and quality score 2, a
text score of 5 yields a merged score of 10, not 5. -/
theorem search_hybrid_quality_counterexample :
    (search_hybrid_merge IndexConfig.default [hybridTextResult] [] 10).map
        (fun r => r.score) = [10] ∧
    hybridTextResult.text_score * IndexConfig.default.text_weight = 5 ∧
    (10 : ℚ) ≠ 5 := by
  refine ⟨?_, ?_, by norm_num⟩
  · norm_num [search_hybrid_merge, hybridStepText, hybridStepVector,
      SearchResult.calculate_weighted_score, insertA, sortByDesc,
      insertByDesc, hybridTextResult, hybridDoc, IndexConfig.default]
  · norm_num [hybridTextResult, IndexConfig.default]

/-- C4 (amended): in the hybrid merge, a document returned by both the
text and the vector search gets the combined score
`text_score*text_weight + vector_score*vector_weight` and a match reason
referencing both signals; a document found by only one of the two
searches contributes that component's weighted score multiplied by the
document's quality score; the merged candidates are sorted by final
score descending and truncated to `max_results`. -/
theorem search_hybrid_merge_spec (config : IndexConfig)
    (tr vr : List SearchResult) (k : Nat)
    (hnt : (tr.map (fun r => r.document.id)).Nodup)
    (hnv : (vr.map (fun r => r.document.id)).Nodup)
    (htr : ∀ r ∈ tr, r.tag_score = 0 ∧ r.vector_score = 0)
    (hvr : ∀ r ∈ vr, r.text_score = 0 ∧ r.tag_score = 0) :
    (∀ r ∈ search_hybrid_merge config tr vr k,
      (∃ t ∈ tr, ∃ v ∈ vr, t.document.id = r.document.id ∧
          v.document.id = r.document.id ∧
          r.score = t.text_score * config.text_weight +
            v.vector_score * config.vector_weight ∧
          r.match_reason = t.match_reason ++ " + Visual similarity") ∨
      ((∃ t ∈ tr, t.document.id = r.document.id ∧
          r.score = t.text_score * config.text_weight *
            t.document.quality_score) ∧
        (∀ v ∈ vr, v.document.id ≠ r.document.id)) ∨
      ((∃ v ∈ vr, v.document.id = r.document.id ∧
          r.score = v.vector_score * config.vector_weight *
            v.document.quality_score) ∧
        (∀ t ∈ tr, t.document.id ≠ r.document.id))) ∧
    (search_hybrid_merge config tr vr k).Pairwise
      (fun a b => b.score ≤ a.score) ∧
    (search_hybrid_merge config tr vr k).length ≤ k := by
  refine ⟨?_, ?_, ?_⟩
  · intro r hr
    simp only [search_hybrid_merge] at hr
    have h2 := mem_sortByDesc _ _ _ (List.take_subset _ _ hr)
    rcases List.mem_map.mp h2 with ⟨p, hp, hpe⟩
    have hnk : NodupKeys (vr.foldl (hybridStepVector config)
        (tr.foldl (hybridStepText config) [])) :=
      nodupKeys_foldVector config vr _
        (nodupKeys_foldText config tr [] (by simp [NodupKeys]))
    have hlook : lookupA (vr.foldl (hybridStepVector config)
        (tr.foldl (hybridStepText config) [])) p.1 = some p.2 :=
      mem_lookupA _ _ _ hnk (by rw [Prod.mk.eta]; exact hp)
    rw [search_hybrid_lookup config tr vr p.1 hnt hnv] at hlook
    cases hft : findRes tr p.1 with
    | some t =>
      have htmem : t ∈ tr := List.mem_of_find?_eq_some hft
      have htid : t.document.id = p.1 := by
        have := List.find?_some hft
        simpa using this
      cases hfv : findRes vr p.1 with
      | some v =>
        have hvmem : v ∈ vr := List.mem_of_find?_eq_some hfv
        have hvid : v.document.id = p.1 := by
          have := List.find?_some hfv
          simpa using this
        rw [hft, hfv] at hlook
        dsimp only at hlook
        have hpr : p.2 = hybridCombine config
            (t.calculate_weighted_score config) v :=
          (Option.some.inj hlook).symm
        left
        have hrid : r.document.id = p.1 := by
          rw [← hpe, hpr]
          unfold hybridCombine SearchResult.calculate_weighted_score
          exact htid
        refine ⟨t, htmem, v, hvmem, by rw [hrid]; exact htid,
          by rw [hrid]; exact hvid, ?_, ?_⟩
        · rw [← hpe, hpr]
          rfl
        · rw [← hpe, hpr]
          rfl
      | none =>
        rw [hft, hfv] at hlook
        dsimp only at hlook
        have hpr : p.2 = t.calculate_weighted_score config :=
          (Option.some.inj hlook).symm
        right
        left
        have hrid : r.document.id = p.1 := by
          rw [← hpe, hpr]
          unfold SearchResult.calculate_weighted_score
          exact htid
        constructor
        · refine ⟨t, htmem, by rw [hrid]; exact htid, ?_⟩
          rw [← hpe, hpr]
          unfold SearchResult.calculate_weighted_score
          dsimp only
          rw [(htr t htmem).1, (htr t htmem).2]
          ring
        · intro v hv hve
          have := List.find?_eq_none.mp hfv v hv
          rw [hve, hrid] at this
          simp at this
    | none =>
      cases hfv : findRes vr p.1 with
      | some v =>
        have hvmem : v ∈ vr := List.mem_of_find?_eq_some hfv
        have hvid : v.document.id = p.1 := by
          have := List.find?_some hfv
          simpa using this
        rw [hft, hfv] at hlook
        dsimp only at hlook
        have hpr : p.2 = v.calculate_weighted_score config :=
          (Option.some.inj hlook).symm
        right
        right
        have hrid : r.document.id = p.1 := by
          rw [← hpe, hpr]
          unfold SearchResult.calculate_weighted_score
          exact hvid
        constructor
        · refine ⟨v, hvmem, by rw [hrid]; exact hvid, ?_⟩
          rw [← hpe, hpr]
          unfold SearchResult.calculate_weighted_score
          dsimp only
          rw [(hvr v hvmem).1, (hvr v hvmem).2]
          ring
        · intro t ht hte
          have := List.find?_eq_none.mp hft t ht
          rw [hte, hrid] at this
          simp at this
      | none =>
        rw [hft, hfv] at hlook
        dsimp only at hlook
        exact absurd hlook (by simp)
  · simp only [search_hybrid_merge]
    exact List.Pairwise.sublist (List.take_sublist _ _)
      (pairwise_sortByDesc (fun r : SearchResult => r.score) _)
  · simp only [search_hybrid_merge]
    exact List.length_take_le _ _

/-- Witness for the amended C4 theorem at a concrete text-only input. -/
theorem search_hybrid_merge_spec_witness :
    (∀ r ∈ search_hybrid_merge IndexConfig.default [hybridTextResult] [] 10,
      (∃ t ∈ [hybridTextResult], ∃ v ∈ ([] : List SearchResult),
          t.document.id = r.document.id ∧ v.document.id = r.document.id ∧
          r.score = t.text_score * IndexConfig.default.text_weight +
            v.vector_score * IndexConfig.default.vector_weight ∧
          r.match_reason = t.match_reason ++ " + Visual similarity") ∨
      ((∃ t ∈ [hybridTextResult], t.document.id = r.document.id ∧
          r.score = t.text_score * IndexConfig.default.text_weight *
            t.document.quality_score) ∧
        (∀ v ∈ ([] : List SearchResult), v.document.id ≠ r.document.id)) ∨
      ((∃ v ∈ ([] : List SearchResult), v.document.id = r.document.id ∧
          r.score = v.vector_score * IndexConfig.default.vector_weight *
            v.document.quality_score) ∧
        (∀ t ∈ [hybridTextResult], t.document.id ≠ r.document.id))) ∧
    (search_hybrid_merge IndexConfig.default [hybridTextResult] []
        10).Pairwise (fun a b => b.score ≤ a.score) ∧
    (search_hybrid_merge IndexConfig.default [hybridTextResult] []
        10).length ≤ 10 :=
  search_hybrid_merge_spec IndexConfig.default [hybridTextResult] [] 10
    (by simp) (by simp) (by simp [hybridTextResult]) (by simp)

/-! ### `WF` is an invariant of every reachable index state

`TextIndex.new` is well-formed, and both `add_document` and
`remove_document` preserve well-formedness, so the `WF` hypothesis of
the claim theorems holds for every state the API can produce. -/

theorem mem_eraseA_of_ne {α β : Type} [DecidableEq α] (m : List (α × β))
    (k : α) (q : α × β) (h : q ∈ m) (hne : q.1 ≠ k) : q ∈ eraseA m k := by
  induction m with
  | nil => simp at h
  | cons p r ih =>
    rcases List.mem_cons.mp h with h | h
    · rw [eraseA, if_neg (by rw [← h]; exact hne)]
      exact List.mem_cons.mpr (Or.inl h)
    · by_cases h1 : p.1 = k
      · rw [eraseA, if_pos h1]
        exact ih h
      · rw [eraseA, if_neg h1]
        exact List.mem_cons.mpr (Or.inr (ih h))

theorem mem_insertA_of_ne {α β : Type} [DecidableEq α] (m : List (α × β))
    (k : α) (v : β) (q : α × β) (h : q ∈ m) (hne : q.1 ≠ k) :
    q ∈ insertA m k v := by
  induction m with
  | nil => simp at h
  | cons p r ih =>
    rcases List.mem_cons.mp h with h | h
    · rw [insertA, if_neg (by rw [← h]; exact hne)]
      exact List.mem_cons.mpr (Or.inl h)
    · by_cases h1 : p.1 = k
      · rw [insertA, if_pos h1]
        exact List.mem_cons.mpr (Or.inr h)
      · rw [insertA, if_neg h1]
        exact List.mem_cons.mpr (Or.inr (ih h))

theorem mem_insertA_self {α β : Type} [DecidableEq α] (m : List (α × β))
    (k : α) (v : β) : (k, v) ∈ insertA m k v := by
  induction m with
  | nil => simp [insertA]
  | cons p r ih =>
    by_cases h1 : p.1 = k
    · rw [insertA, if_pos h1]
      exact List.mem_cons.mpr (Or.inl rfl)
    · rw [insertA, if_neg h1]
      exact List.mem_cons.mpr (Or.inr ih)

theorem mem_modifyA_strong {α β : Type} [DecidableEq α] (m : List (α × β))
    (k : α) (d : β) (f : β → β) (q : α × β) (h : q ∈ modifyA m k d f) :
    q ∈ m ∨ (q.1 = k ∧ q.2 = f ((lookupA m k).getD d)) := by
  induction m with
  | nil =>
    simp [modifyA] at h
    subst h
    exact Or.inr ⟨rfl, by simp [lookupA]⟩
  | cons p r ih =>
    by_cases h1 : p.1 = k
    · simp only [modifyA, if_pos h1] at h
      rcases List.mem_cons.mp h with h | h
      · subst h
        refine Or.inr ⟨rfl, ?_⟩
        simp only [lookupA, if_pos h1, Option.getD_some]
      · exact Or.inl (List.mem_cons.mpr (Or.inr h))
    · simp only [modifyA, if_neg h1] at h
      rcases List.mem_cons.mp h with h | h
      · exact Or.inl (List.mem_cons.mpr (Or.inl h))
      · rcases ih h with h | h
        · exact Or.inl (List.mem_cons.mpr (Or.inr h))
        · refine Or.inr ⟨h.1, ?_⟩
          rw [h.2]
          have hll : lookupA (p :: r) k = lookupA r k := by
            simp only [lookupA, if_neg h1]
          rw [hll]

theorem mem_removeTermDoc_strong (ti : TermIndexMap) (did : Nat)
    (t' : List Char) (q : List Char × List (Nat × List TermOccurrence))
    (h : q ∈ removeTermDoc ti did t') :
    q ∈ ti ∨ ∃ m, (t', m) ∈ ti ∧ q = (t', eraseA m did) ∧
      eraseA m did ≠ [] := by
  unfold removeTermDoc at h
  cases hl : lookupA ti t' with
  | none => rw [hl] at h; exact Or.inl h
  | some m =>
    rw [hl] at h
    dsimp only at h
    by_cases he : eraseA m did = []
    · rw [if_pos he] at h
      exact Or.inl (mem_eraseA _ _ _ h)
    · rw [if_neg he] at h
      rcases mem_insertA _ _ _ _ h with h | h
      · exact Or.inl h
      · exact Or.inr ⟨m, lookupA_mem _ _ _ hl, h, he⟩

/-- The map-structure invariant on the term index alone. -/
def TIInv (ti : TermIndexMap) : Prop :=
  NodupKeys ti ∧ ∀ p ∈ ti, NodupKeys p.2 ∧ p.2 ≠ []

theorem tiInv_removeTermDoc (ti : TermIndexMap) (did : Nat) (t' : List Char)
    (h : TIInv ti) : TIInv (removeTermDoc ti did t') := by
  obtain ⟨hn, hmaps⟩ := h
  constructor
  · unfold removeTermDoc
    cases hl : lookupA ti t' with
    | none => exact hn
    | some m =>
      dsimp only
      by_cases he : eraseA m did = []
      · rw [if_pos he]
        exact nodupKeys_eraseA _ _ hn
      · rw [if_neg he]
        exact nodupKeys_insertA _ _ _ hn
  · intro p hp
    rcases mem_removeTermDoc_strong ti did t' p hp with hp | ⟨m, hm, hpe, hne⟩
    · exact hmaps p hp
    · rw [hpe]
      exact ⟨nodupKeys_eraseA _ _ (hmaps (t', m) hm).1, hne⟩

theorem tiInv_removeFold (ts : List (List Char)) (ti : TermIndexMap)
    (did : Nat) (h : TIInv ti) :
    TIInv (ts.foldl (fun ti t => removeTermDoc ti did t) ti) := by
  induction ts generalizing ti with
  | nil => exact h
  | cons t' ts ih =>
    rw [List.foldl_cons]
    exact ih _ (tiInv_removeTermDoc ti did t' h)

theorem mem_removeFold (ts : List (List Char)) (ti : TermIndexMap)
    (did : Nat) (q : List Char × List (Nat × List TermOccurrence))
    (hq : q ∈ ts.foldl (fun ti t => removeTermDoc ti did t) ti) :
    ∃ p0 ∈ ti, p0.1 = q.1 ∧ ∀ x ∈ q.2, x ∈ p0.2 := by
  induction ts generalizing ti with
  | nil => exact ⟨q, hq, rfl, fun x hx => hx⟩
  | cons t' ts ih =>
    rw [List.foldl_cons] at hq
    obtain ⟨p1, hp1, hpe, hsub⟩ := ih _ hq
    rcases mem_removeTermDoc_strong ti did t' p1 hp1 with hp | ⟨m, hm, hpe2, -⟩
    · exact ⟨p1, hp, hpe, hsub⟩
    · refine ⟨(t', m), hm, by rw [hpe2] at hpe; exact hpe, fun x hx => ?_⟩
      have := hsub x hx
      rw [hpe2] at this
      exact mem_eraseA _ _ _ this

/-- `TextIndex.new` is well-formed. -/
theorem WF_new (config : IndexConfig) : WF (TextIndex.new config) := by
  refine ⟨by simp [TextIndex.new, NodupKeys], by simp [TextIndex.new, NodupKeys],
    ?_, ?_⟩ <;> intro p hp <;> simp [TextIndex.new] at hp

/-- `remove_document` preserves well-formedness. -/
theorem WF_remove (idx : TextIndex) (did : Nat) (h : WF idx) :
    WF (remove_document idx did) := by
  cases hl : lookupA idx.document_terms did with
  | none => rw [remove_document_noop idx did hl]; exact h
  | some ts =>
    rw [remove_document_of_lookup idx did ts hl]
    obtain ⟨hti, hdt, hmaps, hcoh⟩ := h
    have htiInv := tiInv_removeFold ts idx.term_index did ⟨hti, hmaps⟩
    refine ⟨htiInv.1, nodupKeys_eraseA _ _ hdt, htiInv.2, ?_⟩
    intro p hp q hq
    obtain ⟨p0, hp0, hpe, hsub⟩ := mem_removeFold ts idx.term_index did p hp
    have hq0 := hsub q hq
    obtain ⟨r, hr, hr1, hrt⟩ := hcoh p0 hp0 q hq0
    by_cases hqd : q.1 = did
    · exfalso
      have hdp : docPosting
          (ts.foldl (fun ti t => removeTermDoc ti did t) idx.term_index)
          p.1 did = none := by
        have := remove_document_docPosting idx did ⟨hti, hdt, hmaps, hcoh⟩ p.1
        rw [remove_document_of_lookup idx did ts hl] at this
        exact this
      unfold docPosting at hdp
      rw [mem_lookupA _ _ _ htiInv.1 (by rw [← Prod.mk.eta (p := p)] at hp; exact hp),
        Option.some_bind] at hdp
      have hqq : lookupA p.2 did = some q.2 := by
        rw [← hqd]
        exact mem_lookupA _ _ _ (htiInv.2 p hp).1
          (by rw [← Prod.mk.eta (p := q)] at hq; exact hq)
      rw [hqq] at hdp
      exact absurd hdp (by simp)
    · refine ⟨r, mem_eraseA_of_ne _ _ _ hr (by rw [hr1]; exact hqd), hr1, ?_⟩
      rw [hpe] at hrt
      exact hrt

theorem tiInv_indexTokens (did : Nat) (field : String) (boost : ℚ)
    (pos : Nat) (toks : List (List Char)) (ti : TermIndexMap)
    (dt : List (List Char)) (h : TIInv ti) :
    TIInv (indexTokens did field boost pos toks (ti, dt)).1 := by
  induction toks generalizing pos ti dt with
  | nil => exact h
  | cons tok toks ih =>
    rw [indexTokens]
    refine ih _ _ _ ?_
    obtain ⟨hn, hmaps⟩ := h
    constructor
    · exact nodupKeys_modifyA _ _ _ _ hn
    · intro p hp
      rcases mem_modifyA_strong _ _ _ _ p hp with hp | ⟨-, hpe⟩
      · exact hmaps p hp
      · rw [hpe]
        refine ⟨nodupKeys_modifyA _ _ _ _ ?_, modifyA_ne_nil _ _ _ _⟩
        cases hl : lookupA ti tok with
        | none => simp [NodupKeys]
        | some m => exact (hmaps (tok, m) (lookupA_mem _ _ _ hl)).1

theorem tiInv_indexAllFields (did : Nat)
    (specs : List (String × List Char × ℚ)) (ti : TermIndexMap)
    (dt : List (List Char)) (h : TIInv ti) :
    TIInv (indexAllFields did specs (ti, dt)).1 := by
  induction specs generalizing ti dt with
  | nil => exact h
  | cons spec specs ih =>
    rw [indexAllFields, List.foldl_cons]
    have hpair :
        index_field did spec.1 spec.2.1 spec.2.2 (ti, dt) =
          ((index_field did spec.1 spec.2.1 spec.2.2 (ti, dt)).1,
            (index_field did spec.1 spec.2.1 spec.2.2 (ti, dt)).2) := rfl
    rw [hpair]
    have := ih (index_field did spec.1 spec.2.1 spec.2.2 (ti, dt)).1
      (index_field did spec.1 spec.2.1 spec.2.2 (ti, dt)).2
      (tiInv_indexTokens did spec.1 spec.2.2 0 (tokenize spec.2.1) ti dt h)
    rw [indexAllFields] at this
    exact this

/-- `add_document` preserves well-formedness. -/
theorem WF_add (idx : TextIndex) (d : AssetDocument) (h : WF idx) :
    WF (add_document idx d) := by
  have h0 : WF (remove_document idx d.id) := WF_remove idx d.id h
  rw [add_document_eq]
  obtain ⟨hti0, hdt0, hmaps0, hcoh0⟩ := h0
  have htiInv : TIInv (indexAllFields d.id (fieldSpecs d)
      ((remove_document idx d.id).term_index, [])).1 :=
    tiInv_indexAllFields d.id (fieldSpecs d) _ [] ⟨hti0, hmaps0⟩
  refine ⟨htiInv.1, nodupKeys_insertA _ _ _ hdt0, htiInv.2, ?_⟩
  intro p hp q hq
  have hlp : lookupA (indexAllFields d.id (fieldSpecs d)
      ((remove_document idx d.id).term_index, [])).1 p.1 = some p.2 :=
    mem_lookupA _ _ _ htiInv.1 (by rw [← Prod.mk.eta (p := p)] at hp; exact hp)
  have hlq : lookupA p.2 q.1 = some q.2 :=
    mem_lookupA _ _ _ (htiInv.2 p hp).1
      (by rw [← Prod.mk.eta (p := q)] at hq; exact hq)
  by_cases hqd : q.1 = d.id
  · have hdp : docPosting (indexAllFields d.id (fieldSpecs d)
        ((remove_document idx d.id).term_index, [])).1 p.1 d.id ≠ none := by
      unfold docPosting
      rw [hlp, Option.some_bind, ← hqd, hlq]
      simp
    rw [docPosting_indexAllFields,
      remove_document_docPosting idx d.id h p.1] at hdp
    have hfr : freshOccsSpecs (fieldSpecs d) p.1 ≠ [] := by
      intro hx
      rw [hx] at hdp
      exact hdp rfl
    have hmem := (mem_termsOfSpecs (fieldSpecs d) [] p.1).mpr
      (Or.inr ((freshOccsSpecs_ne_nil_iff _ _).mp hfr))
    refine ⟨(d.id, termsOfSpecs (fieldSpecs d) []), ?_, by rw [hqd], hmem⟩
    rw [indexAllFields_snd]
    exact mem_insertA_self _ _ _
  · have hdp : docPosting (indexAllFields d.id (fieldSpecs d)
        ((remove_document idx d.id).term_index, [])).1 p.1 q.1 =
          some q.2 := by
      unfold docPosting
      rw [hlp, Option.some_bind, hlq]
    rw [docPosting_indexAllFields_otherDoc _ _ _ _ _ _ hqd] at hdp
    obtain ⟨m0, hm0, hq0⟩ := docPosting_eq_some_elim _ _ _ _ hdp
    obtain ⟨r, hr, hr1, hrt⟩ := hcoh0 (p.1, m0) (lookupA_mem _ _ _ hm0)
      (q.1, q.2) (lookupA_mem _ _ _ hq0)
    exact ⟨r, mem_insertA_of_ne _ _ _ _ hr (by rw [hr1]; exact hqd), hr1, hrt⟩

end DAM
